import Mathlib

/-!
Verification of the Babel Markdown translation pipeline.

Text is modelled as `List Char` (one Kotlin/TypeScript `String` character per
entry).  Whitespace trimming is modelled for the ASCII whitespace characters
that occur in Markdown documents (space, tab, CR, LF); all concrete inputs in
this development use only those.
-/

namespace BabelMD

abbrev Str := List Char

def strLit (s : String) : Str := s.data

/-- Whitespace test used by `trim` (ASCII subset of Kotlin `Char.isWhitespace`
and the JS `trim` whitespace class). -/

def isWS (c : Char) : Bool := c == ' ' || c == '\t' || c == '\r' || c == '\n'

/-- `String.trim`: drop whitespace from both ends. -/

def trimStr (s : Str) : Str :=
  ((s.dropWhile isWS).reverse.dropWhile isWS).reverse

/-- `markdown.split("\n")` (Kotlin) / `markdown.split(/\r?\n/)` modulo the
per-line CR stripping applied separately. Always returns a non-empty list. -/

def splitLines : Str → List Str
  | [] => [[]]
  | c :: rest =>
    if c = '\n' then [] :: splitLines rest
    else
      match splitLines rest with
      | [] => [[c]]
      | l :: ls => (c :: l) :: ls

/-- `joinToString("\n")` on lines. -/

def joinLines : List Str → Str
  | [] => []
  | [l] => l
  | l :: ls => l ++ '\n' :: joinLines ls

/-- Kotlin `line.removeSuffix("\r")`. -/

def removeSuffixCR (l : Str) : Str :=
  if l.getLast? = some '\r' then l.dropLast else l

/-- `trimmed.startsWith("```")`. -/

def startsWithFence : Str → Bool
  | '`' :: '`' :: '`' :: _ => true
  | _ => false

/-! ## MarkdownSegmenter (JetBrains Kotlin implementation)

`jb/.../services/MarkdownSegmenter.kt`.  Stage 1 scans lines into paragraphs
(represented as the list of buffered lines); stage 2 adaptively merges
paragraphs toward `minChars = 500`. -/

namespace MarkdownSegmenter

/-- `flushParagraph()`: emit the buffer as a paragraph unless it is empty or
its joined text trims to nothing. -/

def flushParagraph (buffer : List Str) : List (List Str) :=
  if buffer = [] then []
  else if trimStr (joinLines buffer) = [] then []
  else [buffer]

/-- The line scan of `MarkdownSegmenter.split`: blank lines outside fences are
flush points; a line whose trimmed form starts with a fence marker toggles
`inFence` and is always buffered. -/

def scanLines : List Str → List Str → Bool → List (List Str)
  | [], buffer, _ => flushParagraph buffer
  | raw :: rest, buffer, inFence =>
    let line := removeSuffixCR raw
    let trimmed := trimStr line
    if startsWithFence trimmed then
      scanLines rest (buffer ++ [line]) (!inFence)
    else if !inFence && trimmed = [] then
      flushParagraph buffer ++ scanLines rest [] inFence
    else
      scanLines rest (buffer ++ [line]) inFence

/-- Paragraphs of a document, as joined strings. -/

def paragraphsOf (markdown : Str) : List Str :=
  (scanLines (splitLines markdown) [] false).map joinLines

/-- The adaptive-merge target length from the source (`minChars = 500`). -/

def minChars : Nat := 500

/-- One step of `appendParagraph`: join with a blank line. -/

def appendPara (current p : Str) : Str := current ++ '\n' :: '\n' :: p

/-- The adaptive merge loop of `MarkdownSegmenter.split`, including the
trailing-buffer handling (a short leftover is merged into the previous
segment when one exists). -/

def mergeGo : List Str → Str → List Str → List Str
  | [], current, segments =>
    if current = [] then segments
    else if current.length < minChars ∧ segments ≠ [] then
      match segments.getLast? with
      | some lastSeg => segments.dropLast ++ [appendPara lastSeg current]
      | none => segments ++ [current]
    else segments ++ [current]
  | p :: ps, current, segments =>
    if current = [] ∧ minChars ≤ p.length then
      mergeGo ps [] (segments ++ [p])
    else if current = [] then
      mergeGo ps p segments
    else if current.length < minChars then
      let cur2 := appendPara current p
      if minChars ≤ cur2.length then mergeGo ps [] (segments ++ [cur2])
      else mergeGo ps cur2 segments
    else
      if minChars ≤ p.length then mergeGo ps [] (segments ++ [current, p])
      else mergeGo ps p (segments ++ [current])

/-- `MarkdownSegmenter.split`. -/

def split (markdown : Str) : List Str :=
  let paragraphs := paragraphsOf markdown
  if paragraphs = [] then
    if trimStr markdown = [] then [] else [markdown]
  else
    mergeGo paragraphs [] []

end MarkdownSegmenter

/-! ## TranslationService.splitIntoSegments (VS Code TypeScript implementation)

`src/services/TranslationService.ts`.  Same fence-aware scan, but flushes do
not drop whitespace-only paragraphs and there is no adaptive merging. -/

namespace TSService

def flushTS (buffer : List Str) : List (List Str) :=
  if buffer = [] then [] else [buffer]

def scanTS : List Str → List Str → Bool → List (List Str)
  | [], buffer, _ => flushTS buffer
  | line :: rest, buffer, inFence =>
    let trimmed := trimStr line
    if startsWithFence trimmed then
      scanTS rest (buffer ++ [line]) (!inFence)
    else if !inFence && trimmed = [] then
      flushTS buffer ++ scanTS rest [] inFence
    else
      scanTS rest (buffer ++ [line]) inFence

def splitIntoSegments (markdown : Str) : List Str :=
  let segs := (scanTS ((splitLines markdown).map removeSuffixCR) [] false).map joinLines
  if segs = [] ∧ trimStr markdown ≠ [] then [markdown] else segs

end TSService

/-! ## Fence counting -/

/-- A line participates in fence toggling iff its trimmed form starts with
three backticks. -/

def isFenceLine (l : Str) : Bool := startsWithFence (trimStr l)

def fenceCount (lines : List Str) : Nat := lines.countP isFenceLine

/-- Number of fence-marker lines of a string. For a whole document this is the
total count whose evenness is "balanced fences". -/

def fenceCountStr (s : Str) : Nat := fenceCount (splitLines s)

/-- Specification function for the flush-point property: the lines the scan
keeps, in order. A blank line is dropped (it acts as a paragraph separator)
exactly when it occurs outside a fence; fence lines and non-blank lines are
always kept, as are blank lines inside a fence. -/

def keptLines : List Str → Bool → List Str
  | [], _ => []
  | raw :: rest, inFence =>
    let line := removeSuffixCR raw
    let trimmed := trimStr line
    if startsWithFence trimmed then line :: keptLines rest (!inFence)
    else if !inFence && trimmed = [] then keptLines rest inFence
    else line :: keptLines rest inFence

/-! ## Adaptive-merge length bound (C6) -/

def maxLen (ps : List Str) : Nat := ps.foldr (fun p m => max p.length m) 0

/-! ## Translation data model (jb Kotlin `services`)

Mirrors `TranslationErrorCode`, `RawTranslationResult`, `SegmentRecovery`,
`TranslationSegmentUpdate` from the Kotlin data classes. Markdown text is
`Str`; provider ids and messages are Lean `String`s. -/

inductive TranslationErrorCode
  | AUTHENTICATION
  | TIMEOUT
  | RATE_LIMIT
  | NETWORK
  | SERVER
  | INVALID_RESPONSE
  | UNKNOWN
deriving DecidableEq, Repr

structure RawTranslationResult where
  markdown : Str
  providerId : String
  latencyMs : Nat
deriving DecidableEq, Repr

structure SegmentRecovery where
  segmentIndex : Nat
  code : TranslationErrorCode
  type : String
  attempts : Nat
  message : String
deriving DecidableEq, Repr

structure TranslationSegmentUpdate where
  segmentIndex : Nat
  totalSegments : Nat
  markdown : Str
  latencyMs : Nat
  providerId : String
  wasCached : Bool
  recovery : Option SegmentRecovery
deriving DecidableEq, Repr

/-- `TranslationProviderException`: a coded failure with its retryable flag. -/

structure ProviderError where
  code : TranslationErrorCode
  retryable : Bool
  message : String
deriving DecidableEq, Repr

/-- A failure escaping `OpenAITranslationClient.translate`: either a
`TranslationProviderException` carrying a code, or an uncoded exception (a
`JsonSyntaxException` from an unparseable body, or the null-dereference when
the body parses to null) that carries no error code at all. -/

inductive ClientFailure
  | coded (e : ProviderError)
  | uncoded
deriving DecidableEq, Repr

/-! ## OpenAITranslationClient error classification (jb Kotlin)

The transport layer and JSON parsing are external (OkHttp, Gson); the
classification control flow of `translate` is embedded over an abstract
transport outcome. -/

/-- How the response body behaves under `gson.fromJson` and the
`choices?.firstOrNull()?.message?.content` extraction. `content raw` is the
extracted content before the final `trim()`; an absent chain collapses to the
empty string via `orEmpty()`. -/

inductive BodyParse
  | malformed
  | nullParse
  | content (raw : Str)
deriving DecidableEq, Repr

/-- Abstract outcome of executing the HTTP call. -/

inductive TransportOutcome
  | socketTimeout
  | ioFailure
  | otherFailure
  | httpResponse (status : Nat) (body : BodyParse)
deriving DecidableEq, Repr

/-- `OpenAITranslationClient.mapStatusToError`. -/

def mapStatusToError (status : Nat) : TranslationErrorCode × Bool :=
  if status = 401 ∨ status = 403 then (.AUTHENTICATION, false)
  else if status = 408 ∨ status = 504 then (.TIMEOUT, true)
  else if status = 429 then (.RATE_LIMIT, true)
  else if 500 ≤ status ∧ status ≤ 599 then (.SERVER, true)
  else (.UNKNOWN, false)

/-- The error-classification control flow of
`OpenAITranslationClient.translate`: transport failures are caught and coded;
an unsuccessful HTTP status is mapped by `mapStatusToError`; on success a
body that fails to parse (or parses to null) escapes as an uncoded exception;
a parsed body whose trimmed content is empty raises INVALID_RESPONSE; and
otherwise the trimmed content is returned. -/

def translateClassify : TransportOutcome → Except ClientFailure Str
  | .socketTimeout =>
    .error (.coded ⟨.TIMEOUT, true, "Translation request timed out."⟩)
  | .ioFailure =>
    .error (.coded ⟨.NETWORK, true, "Translation request failed due to a network error."⟩)
  | .otherFailure =>
    .error (.coded ⟨.UNKNOWN, false, "Translation request failed due to an unknown error."⟩)
  | .httpResponse status body =>
    if 200 ≤ status ∧ status < 300 then
      match body with
      | .malformed => .error .uncoded
      | .nullParse => .error .uncoded
      | .content raw =>
        if trimStr raw = [] then
          .error (.coded ⟨.INVALID_RESPONSE, false, "Translation API returned an empty response."⟩)
        else .ok (trimStr raw)
    else
      .error (.coded ⟨(mapStatusToError status).1, (mapStatusToError status).2,
        "Translation API responded with an error."⟩)

/-- Projection used to state the classification table: the code and retryable
flag carried by a failure, if any. -/

def failureCode : Except ClientFailure Str → Option (TranslationErrorCode × Bool)
  | .error (.coded e) => some (e.code, e.retryable)
  | _ => none

/-! ## TranslationService.translateSegmentWithRetry (jb Kotlin) -/

/-- The wrapped error produced by the generic `catch (error: Exception)`. -/

def unknownProviderError : ProviderError :=
  ⟨.UNKNOWN, false, "Translation failed due to an unknown error."⟩

/-- State of the retry `while` loop when it exits. -/

structure LoopExit where
  attempts : Nat
  lastError : Option ProviderError
  success : Option RawTranslationResult
deriving DecidableEq, Repr

/-- The `while (attempts < retryMaxAttempts)` loop of
`translateSegmentWithRetry`, with `remaining = retryMaxAttempts - attempts`
as structural fuel. `client k` is the Translation Client's behaviour on the
k-th attempt (1-based). A retryable coded failure with attempts left retries
(after a `250ms * attempts` delay, not modelled); a terminal coded failure or
attempt exhaustion breaks with the error recorded; an uncoded exception is
wrapped as a non-retryable UNKNOWN and breaks. -/

def retryLoop (client : Nat → Except ClientFailure RawTranslationResult)
    (maxAttempts : Nat) : Nat → Nat → Option ProviderError → LoopExit
  | 0, attempts, lastErr => ⟨attempts, lastErr, none⟩
  | r + 1, attempts, lastErr =>
    let attempts' := attempts + 1
    match client attempts' with
    | .ok res => ⟨attempts', lastErr, some res⟩
    | .error (.coded e) =>
      if e.retryable = true ∧ attempts' < maxAttempts then
        retryLoop client maxAttempts r attempts' (some e)
      else ⟨attempts', some e, none⟩
    | .error .uncoded => ⟨attempts', some unknownProviderError, none⟩

def codeLabel : TranslationErrorCode → String
  | .AUTHENTICATION => "AUTHENTICATION"
  | .TIMEOUT => "TIMEOUT"
  | .RATE_LIMIT => "RATE_LIMIT"
  | .NETWORK => "NETWORK"
  | .SERVER => "SERVER"
  | .INVALID_RESPONSE => "INVALID_RESPONSE"
  | .UNKNOWN => "UNKNOWN"

/-- `TranslationService.buildPlaceholderSegment`. -/

def buildPlaceholderSegment (e : ProviderError) (segmentMarkdown : Str) : Str :=
  strLit "> Translation failed for this section (" ++ strLit (codeLabel e.code) ++
    strLit ").\n>\n> Showing original text." ++
    (if trimStr segmentMarkdown ≠ [] then '\n' :: '\n' :: segmentMarkdown else [])

/-- Per-segment outcome: the result used for composition plus the optional
recovery metadata. -/

structure SegmentOutcome where
  result : RawTranslationResult
  recovery : Option SegmentRecovery
deriving DecidableEq, Repr

/-- `TranslationService.translateSegmentWithRetry`. `model` is
`request.config.model`, used as the placeholder's provider id. -/

def translateSegmentWithRetry (client : Nat → Except ClientFailure RawTranslationResult)
    (maxAttempts : Nat) (model : String) (segmentIndex : Nat)
    (segmentMarkdown : Str) : SegmentOutcome :=
  let exit := retryLoop client maxAttempts maxAttempts 0 none
  match exit.success with
  | some res => ⟨res, none⟩
  | none =>
    let err := exit.lastError.getD unknownProviderError
    ⟨⟨buildPlaceholderSegment err segmentMarkdown, model, 0⟩,
      some ⟨segmentIndex, err.code, "placeholder", exit.attempts, err.message⟩⟩

/-- Number of Translation Client invocations one segment makes. -/

def retryInvocations (client : Nat → Except ClientFailure RawTranslationResult)
    (maxAttempts : Nat) : Nat :=
  (retryLoop client maxAttempts maxAttempts 0 none).attempts

/-! ## TranslationService.translateDocument (jb Kotlin): scheduling model

`translateDocument` launches one coroutine per segment under a semaphore with
`normalizeConcurrency` permits; each worker holds a permit for the duration
of its segment's translation and invokes `onSegment` when it completes, with
no reordering buffer.  The semaphore is modelled as FIFO: segment i+1 starts
no earlier than segment i; a worker's completion time is its start time plus
its latency, and emissions happen in completion order (ties broken by index).
-/

def mapWithIndex (f : Nat → α → β) : Nat → List α → List β
  | _, [] => []
  | i, a :: as => f i a :: mapWithIndex f (i + 1) as

/-- `normalizeConcurrency` from the source. -/

def normalizeConcurrency (requested segmentCount : Nat) : Nat :=
  if requested < 1 then 1 else min requested (max segmentCount 1)

def listMin : List Nat → Nat
  | [] => 0
  | [x] => x
  | x :: xs => min x (listMin xs)

def replaceFirst : List Nat → Nat → Nat → List Nat
  | [], _, _ => []
  | x :: xs, t, v => if x = t then v :: xs else x :: replaceFirst xs t v

/-- Completion time of each segment, in index order: `avail` holds the times
at which each of the `c` permits becomes free; the next segment takes the
earliest permit. -/

def finishTimes : List Nat → List Nat → List Nat
  | _, [] => []
  | avail, l :: ls =>
    (listMin avail + l) :: finishTimes (replaceFirst avail (listMin avail) (listMin avail + l)) ls

def schedule (c : Nat) (lat : List Nat) : List Nat :=
  finishTimes (List.replicate c 0) lat

/-- Lexicographic order on (completion time, segment index). -/

def insertEmit (x : Nat × Nat) : List (Nat × Nat) → List (Nat × Nat)
  | [] => [x]
  | y :: ys =>
    if x.1 < y.1 ∨ (x.1 = y.1 ∧ x.2 ≤ y.2) then x :: y :: ys else y :: insertEmit x ys

def sortEmit (l : List (Nat × Nat)) : List (Nat × Nat) := l.foldr insertEmit []

/-- The order in which `onSegment` fires: indices sorted by completion time. -/

def emissionOrder (c : Nat) (lat : List Nat) : List Nat :=
  (sortEmit (mapWithIndex (fun i t => (t, i)) 0 (schedule c lat))).map (fun p => p.2)

/-- Emission order of a run with the requested concurrency limit. -/

def runEmissionOrder (requested : Nat) (lat : List Nat) : List Nat :=
  emissionOrder (normalizeConcurrency requested lat.length) lat

/-- The `results` array: each worker writes `results[index] = outcome.result`
when its segment completes, in emission (completion) order. -/

def runResults (order : List Nat) (outcomes : List SegmentOutcome) :
    List (Option RawTranslationResult) :=
  order.foldl (fun acc i =>
    match outcomes.get? i with
    | some o => acc.set i (some o.result)
    | none => acc) (List.replicate outcomes.length none)

/-- `joinToString("\n\n")`. -/

def joinNN : List Str → Str
  | [] => []
  | [x] => x
  | x :: xs => x ++ '\n' :: '\n' :: joinNN xs

/-- `results.filterNotNull().joinToString("\n\n") { it.markdown }`. -/

def finalMarkdown (order : List Nat) (outcomes : List SegmentOutcome) : Str :=
  joinNN ((runResults order outcomes).filterMap (fun x => x.map (fun r => r.markdown)))

/-- The per-segment outcomes of a run: `segments.mapIndexed`, each segment
translated with its own client behaviour and its position as
`segmentIndex`. -/

def segmentOutcomes (clients : Nat → Nat → Except ClientFailure RawTranslationResult)
    (maxAttempts : Nat) (model : String) (segments : List Str) : List SegmentOutcome :=
  mapWithIndex (fun i seg => translateSegmentWithRetry (clients i) maxAttempts model i seg)
    0 segments

def insertRec (r : SegmentRecovery) : List SegmentRecovery → List SegmentRecovery
  | [] => [r]
  | x :: xs => if r.segmentIndex ≤ x.segmentIndex then r :: x :: xs else x :: insertRec r xs

/-- `recoveries.sortedBy { it.segmentIndex }`, applied to the recoveries the
workers collected (one per recovered segment). -/

def runRecoveries (outcomes : List SegmentOutcome) : List SegmentRecovery :=
  (outcomes.filterMap (fun o => o.recovery)).foldr insertRec []

/-- The stream of `TranslationSegmentUpdate`s a run emits, in emission order.
`wasCached` is the literal `false` of the source; `html` (an external
renderer call) is not modelled. -/

def runEmissions (requested : Nat) (lat : List Nat) (outcomes : List SegmentOutcome) :
    List TranslationSegmentUpdate :=
  (runEmissionOrder requested lat).filterMap fun i =>
    (outcomes.get? i).map fun o =>
      ⟨i, outcomes.length, o.result.markdown, o.result.latencyMs, o.result.providerId,
        false, o.recovery⟩

/-! ## Association maps with JavaScript `Map` semantics

The in-memory `TranslationCache` uses JS `Map`s and `Set`s; they are modelled
as association lists in insertion order with unique keys: `set` replaces in
place or appends, `delete` removes, iteration follows list order. -/

def mapGet [DecidableEq κ] : List (κ × α) → κ → Option α
  | [], _ => none
  | (k2, v) :: rest, k => if k2 = k then some v else mapGet rest k

def mapSet [DecidableEq κ] : List (κ × α) → κ → α → List (κ × α)
  | [], k, v => [(k, v)]
  | (k2, v2) :: rest, k, v =>
    if k2 = k then (k2, v) :: rest else (k2, v2) :: mapSet rest k v

def mapDelete [DecidableEq κ] : List (κ × α) → κ → List (κ × α)
  | [], _ => []
  | (k2, v2) :: rest, k => if k2 = k then rest else (k2, v2) :: mapDelete rest k

def keysNodup [DecidableEq κ] (m : List (κ × α)) : Prop :=
  m.Pairwise (fun a b => a.1 ≠ b.1)

/-! ## In-memory TranslationCache (src/services/TranslationCacheStore.ts)

`Date.now()` is passed explicitly as `now`.  The `hashObject`/`sha256Hex`
primitives live in `src/utils/hash.ts`, which is not among the provided
sources; modelled from the spec: they are "stable content-based identifiers"
(spec §2), embedded as the identity on the hashed fields, i.e. as
collision-free hashes, so hash equality coincides with field equality. -/

structure ResolvedTranslationConfiguration where
  apiBaseUrl : String
  apiKey : String
  model : String
  targetLanguage : String
  timeoutMs : Nat
deriving DecidableEq, Repr

/-- `hashObject({apiBaseUrl, model, targetLanguage})` of `buildKey`. -/

structure ConfigHash where
  apiBaseUrl : String
  model : String
  targetLanguage : String
deriving DecidableEq, Repr

def configHashOf (c : ResolvedTranslationConfiguration) : ConfigHash :=
  ⟨c.apiBaseUrl, c.model, c.targetLanguage⟩

/-- `buildKey`'s string `${uri}::${version}::${configHash}` modelled as a
tuple; the `${uri}::` prefix test of `clearForDocument` is modelled as
equality on the `uri` component. -/

structure CacheKey where
  uri : String
  version : Nat
  configHash : ConfigHash
deriving DecidableEq, Repr

def buildKey (uri : String) (version : Nat) (cfg : ResolvedTranslationConfiguration) :
    CacheKey :=
  ⟨uri, version, configHashOf cfg⟩

/-- `segmentMarkdown.replace(/\r\n/g, '\n')`. -/

def replaceCRLF : Str → Str
  | [] => []
  | '\r' :: '\n' :: rest => '\n' :: replaceCRLF rest
  | c :: rest => c :: replaceCRLF rest

/-- `buildSegmentFingerprint`: hash of the normalized content together with
model, targetLanguage and apiBaseUrl. -/

structure SegmentFingerprint where
  content : Str
  model : String
  targetLanguage : String
  apiBaseUrl : String
deriving DecidableEq, Repr

def buildSegmentFingerprint (cfg : ResolvedTranslationConfiguration)
    (segmentMarkdown : Str) : SegmentFingerprint :=
  ⟨trimStr (replaceCRLF segmentMarkdown), cfg.model, cfg.targetLanguage, cfg.apiBaseUrl⟩

/-- The TS `TranslationResult` (markdown + html + provider + latency +
recoveries). -/

structure TranslationResultTS where
  markdown : Str
  html : Str
  providerId : String
  latencyMs : Nat
  recoveries : List SegmentRecovery
deriving DecidableEq, Repr

structure CacheEntry where
  result : TranslationResultTS
  timestamp : Nat
deriving DecidableEq, Repr

structure SegmentCacheEntry where
  result : RawTranslationResult
  timestamp : Nat
deriving DecidableEq, Repr

structure TranslationCache where
  cache : List (CacheKey × CacheEntry)
  segmentCache : List (SegmentFingerprint × SegmentCacheEntry)
  segmentOwners : List (SegmentFingerprint × List String)
  documentSegments : List (String × List SegmentFingerprint)
  maxEntries : Nat
  ttlMs : Nat
  maxSegmentEntries : Nat
deriving DecidableEq, Repr

/-- Constructor defaults: `maxEntries 16`, `ttl 5min`, `segment cap 16*8`. -/

def TranslationCache.empty : TranslationCache :=
  ⟨[], [], [], [], 16, 1000 * 60 * 5, 16 * 8⟩

/-- `TranslationCache.get`: a TTL-expired entry is deleted and reported as a
miss; a hit returns the stored result without touching the entry. -/

def TranslationCache.get (s : TranslationCache) (uri : String) (version : Nat)
    (cfg : ResolvedTranslationConfiguration) (now : Nat) :
    Option TranslationResultTS × TranslationCache :=
  let key := buildKey uri version cfg
  match mapGet s.cache key with
  | none => (none, s)
  | some entry =>
    if s.ttlMs < now - entry.timestamp then
      (none, { s with cache := mapDelete s.cache key })
    else (some entry.result, s)

/-- First key attaining the strictly smallest timestamp, in iteration order
(`evictOne` / `enforceSegmentCapacity`). -/

def oldestKeyAux [DecidableEq κ] : Option (κ × Nat) → List (κ × Nat) → Option (κ × Nat)
  | best, [] => best
  | none, (k, ts) :: rest => oldestKeyAux (some (k, ts)) rest
  | some (bk, bts), (k, ts) :: rest =>
    if ts < bts then oldestKeyAux (some (k, ts)) rest
    else oldestKeyAux (some (bk, bts)) rest

def oldestKeyOf [DecidableEq κ] (l : List (κ × Nat)) : Option κ :=
  (oldestKeyAux none l).map (fun p => p.1)

def TranslationCache.evictOne (s : TranslationCache) : TranslationCache :=
  match oldestKeyOf (s.cache.map (fun p => (p.1, p.2.timestamp))) with
  | none => s
  | some k => { s with cache := mapDelete s.cache k }

/-- `TranslationCache.set`: evict the oldest entry when full, then store. -/

def TranslationCache.set (s : TranslationCache) (uri : String) (version : Nat)
    (cfg : ResolvedTranslationConfiguration) (result : TranslationResultTS)
    (now : Nat) : TranslationCache :=
  let s1 := if s.maxEntries ≤ s.cache.length then s.evictOne else s
  { s1 with cache := mapSet s1.cache (buildKey uri version cfg) ⟨result, now⟩ }

/-- The loop body of `deleteSegmentEntry`: remove `fp` from one document's
fingerprint set, dropping the set when it becomes empty. -/

def removeSegFromDoc (fp : SegmentFingerprint) (acc : TranslationCache)
    (docUri : String) : TranslationCache :=
  match mapGet acc.documentSegments docUri with
  | none => acc
  | some set1 =>
    let set2 := set1.filter (fun f => decide (f ≠ fp))
    if set2 = [] then
      { acc with documentSegments := mapDelete acc.documentSegments docUri }
    else
      { acc with documentSegments := mapSet acc.documentSegments docUri set2 }

/-- `TranslationCache.deleteSegmentEntry`: drop the segment entry and every
owner link referring to it. -/

def TranslationCache.deleteSegmentEntry (s : TranslationCache)
    (fp : SegmentFingerprint) : TranslationCache :=
  match mapGet s.segmentCache fp with
  | none => s
  | some _ =>
    let s1 := { s with segmentCache := mapDelete s.segmentCache fp }
    match mapGet s1.segmentOwners fp with
    | none => s1
    | some owners =>
      let s2 := owners.foldl (removeSegFromDoc fp) s1
      { s2 with segmentOwners := mapDelete s2.segmentOwners fp }

/-- `TranslationCache.associateSegmentWithDocument`. -/

def TranslationCache.associateSegmentWithDocument (s : TranslationCache)
    (fp : SegmentFingerprint) (docUri : String) : TranslationCache :=
  let owners := (mapGet s.segmentOwners fp).getD []
  if docUri ∈ owners then s
  else
    let docSegs := (mapGet s.documentSegments docUri).getD []
    { s with
      segmentOwners := mapSet s.segmentOwners fp (owners ++ [docUri]),
      documentSegments := mapSet s.documentSegments docUri
        (if fp ∈ docSegs then docSegs else docSegs ++ [fp]) }

/-- `TranslationCache.enforceSegmentCapacity`. -/

def TranslationCache.enforceSegmentCapacity (s : TranslationCache) : TranslationCache :=
  if s.segmentCache.length ≤ s.maxSegmentEntries then s
  else
    match oldestKeyOf (s.segmentCache.map (fun p => (p.1, p.2.timestamp))) with
    | none => s
    | some fp => s.deleteSegmentEntry fp

/-- `TranslationCache.getSegment`: a hit refreshes the entry's timestamp to
`now` and registers the reading document as an owner; an expired entry is
removed via `deleteSegmentEntry`. -/

def TranslationCache.getSegment (s : TranslationCache) (uri : String)
    (cfg : ResolvedTranslationConfiguration) (segmentMarkdown : Str) (now : Nat) :
    Option (SegmentFingerprint × RawTranslationResult) × TranslationCache :=
  let fp := buildSegmentFingerprint cfg segmentMarkdown
  match mapGet s.segmentCache fp with
  | none => (none, s)
  | some entry =>
    if s.ttlMs < now - entry.timestamp then
      (none, s.deleteSegmentEntry fp)
    else
      let s1 := { s with segmentCache := mapSet s.segmentCache fp ⟨entry.result, now⟩ }
      (some (fp, entry.result), s1.associateSegmentWithDocument fp uri)

/-- `TranslationCache.setSegment`. -/

def TranslationCache.setSegment (s : TranslationCache) (uri : String)
    (cfg : ResolvedTranslationConfiguration) (segmentMarkdown : Str)
    (result : RawTranslationResult) (now : Nat) : TranslationCache :=
  let fp := buildSegmentFingerprint cfg segmentMarkdown
  let s1 := { s with segmentCache := mapSet s.segmentCache fp ⟨result, now⟩ }
  (s1.associateSegmentWithDocument fp uri).enforceSegmentCapacity

/-- The loop body of `clearForDocument`: detach `docUri` from one segment
fingerprint's owner list, deleting the segment entry when no owner is left. -/

def detachDocFromSeg (docUri : String) (acc : TranslationCache)
    (fp : SegmentFingerprint) : TranslationCache :=
  match mapGet acc.segmentOwners fp with
  | some owners =>
    let owners2 := owners.filter (fun d => decide (d ≠ docUri))
    if owners2 = [] then
      { acc with segmentOwners := mapDelete acc.segmentOwners fp,
                 segmentCache := mapDelete acc.segmentCache fp }
    else { acc with segmentOwners := mapSet acc.segmentOwners fp owners2 }
  | none => { acc with segmentCache := mapDelete acc.segmentCache fp }

/-- `TranslationCache.clearForDocument`: drop the document-tier entries of
the document, then detach it from every segment fingerprint it touched,
deleting a segment entry exactly when this document was its last owner. -/

def TranslationCache.clearForDocument (s : TranslationCache) (docUri : String) :
    TranslationCache :=
  let s1 := { s with cache := s.cache.filter (fun p => decide (p.1.uri ≠ docUri)) }
  match mapGet s1.documentSegments docUri with
  | none => s1
  | some fps =>
    let s2 := fps.foldl (detachDocFromSeg docUri) s1
    { s2 with documentSegments := mapDelete s2.documentSegments docUri }

/-- Owner list of a fingerprint (`segmentOwners.get(fp) ?? empty`). -/

def ownersOf (s : TranslationCache) (fp : SegmentFingerprint) : List String :=
  (mapGet s.segmentOwners fp).getD []

/-- Fingerprint set of a document (`documentSegments.get(uri) ?? empty`). -/

def segsOf (s : TranslationCache) (d : String) : List SegmentFingerprint :=
  (mapGet s.documentSegments d).getD []

/-- Effect of one removal pass on one stored list: drop every occurrence of
`b`, deleting the map entry (`none`) when the list becomes empty. This is the
common shape of `removeSegFromDoc` (on a document's fingerprint set) and
`detachDocFromSeg` (on a fingerprint's owner list). -/

def remFilter [DecidableEq β] (b : β) : Option (List β) → Option (List β)
  | none => none
  | some l =>
    if l.filter (fun x => decide (x ≠ b)) = [] then none
    else some (l.filter (fun x => decide (x ≠ b)))

/-- Well-formedness of the segment bookkeeping: association lists have unique
keys, stored owner/fingerprint lists are never empty, and the owner relation
is bidirectionally consistent: `d` owns `fp` iff `fp` is registered under
`d`. -/

structure CacheWF (s : TranslationCache) : Prop where
  ownersNodup : keysNodup s.segmentOwners
  segsNodup : keysNodup s.documentSegments
  cacheNodup : keysNodup s.segmentCache
  ownersNE : ∀ fp owners, mapGet s.segmentOwners fp = some owners → owners ≠ []
  segsNE : ∀ d fps, mapGet s.documentSegments d = some fps → fps ≠ []
  link : ∀ fp d, d ∈ ownersOf s fp ↔ fp ∈ segsOf s d

/-! ## Durable TranslationCacheStore

Paths are modelled as tuples of the hashed components (`sha256Hex` modelled
from the spec as an injective content hash, here the identity on its input);
the filesystem as a map from paths to parsed entries, `none` standing for a
file that fails to parse (treated as a miss). -/

/-- TS `resolvePaths` result `<storage>/translation-cache/<hash(workspace)>/
<hash(fileUri)>/<hash(lang|model|promptFp)>.json` as a tuple. -/

structure CachePathTS where
  workspaceKey : String
  fileUri : String
  configKey : Str × Str × Str
deriving DecidableEq, Repr

def resolvePathsTS (workspaceKey fileUri : String)
    (cfg : ResolvedTranslationConfiguration) (promptFingerprint : String) : CachePathTS :=
  ⟨workspaceKey, fileUri,
    (trimStr (strLit cfg.targetLanguage), trimStr (strLit cfg.model),
      trimStr (strLit promptFingerprint))⟩

/-- The Kotlin `ResolvedTranslationConfig` (jb side). -/

structure ResolvedTranslationConfig where
  apiBaseUrl : String
  apiKey : String
  model : String
  targetLanguage : String
  timeoutMs : Nat
  concurrencyLimit : Nat
  retryMaxAttempts : Nat
  promptTemplate : String
deriving DecidableEq, Repr

/-- Kotlin `resolveEntryPath` result `<cacheRoot(projectKey)>/<hash(filePath)>/
<hash(lang|model|promptFp)>.json` as a tuple. -/

structure CachePathJB where
  projectKey : String
  filePath : String
  configKey : Str × Str × Str
deriving DecidableEq, Repr

def resolveEntryPathJB (projectKey filePath : String)
    (config : ResolvedTranslationConfig) (promptFingerprint : String) : CachePathJB :=
  ⟨projectKey, filePath,
    (trimStr (strLit config.targetLanguage), trimStr (strLit config.model),
      trimStr (strLit promptFingerprint))⟩

/-- TS `CachedTranslationEntry`; `contentHash` keeps the hashed text itself
(injective hash model). -/

structure CachedTranslationEntry where
  fileUri : String
  filePath : String
  contentHash : Str
  targetLanguage : String
  model : String
  promptFingerprint : String
  markdown : Str
  html : Str
  providerId : String
  latencyMs : Nat
  recoveries : List SegmentRecovery
  updatedAt : Nat
deriving DecidableEq, Repr

/-- `TranslationCacheStore.load`: read the entry at the resolved path, treat
missing or unparseable files as misses, and validate fileUri, content hash,
target language, model and prompt fingerprint, rejecting on any mismatch. -/

def loadTS (fs : List (CachePathTS × Option CachedTranslationEntry))
    (workspaceKey fileUri : String) (documentText : Str)
    (cfg : ResolvedTranslationConfiguration) (promptFingerprint : String) :
    Option CachedTranslationEntry :=
  match mapGet fs (resolvePathsTS workspaceKey fileUri cfg promptFingerprint) with
  | none => none
  | some none => none
  | some (some entry) =>
    if entry.fileUri = fileUri ∧ entry.contentHash = documentText ∧
        entry.targetLanguage = cfg.targetLanguage ∧ entry.model = cfg.model ∧
        entry.promptFingerprint = promptFingerprint
    then some entry else none

/-- `TranslationCacheStore.save`. -/

def saveTS (fs : List (CachePathTS × Option CachedTranslationEntry))
    (workspaceKey fileUri filePath : String) (documentText : Str)
    (cfg : ResolvedTranslationConfiguration) (promptFingerprint : String)
    (result : TranslationResultTS) (now : Nat) :
    List (CachePathTS × Option CachedTranslationEntry) :=
  mapSet fs (resolvePathsTS workspaceKey fileUri cfg promptFingerprint)
    (some ⟨fileUri, filePath, documentText, cfg.targetLanguage, cfg.model,
      promptFingerprint, result.markdown, result.html, result.providerId,
      result.latencyMs, result.recoveries, now⟩)

/-! ## Basic lemmas about the text model -/

theorem splitLines_ne_nil (s : Str) : splitLines s ≠ [] := by
  cases s with
  | nil => simp [splitLines]
  | cons c rest =>
    simp only [splitLines]
    split
    · simp
    · cases h : splitLines rest <;> simp

theorem splitLines_append_newline (x y : Str) :
    splitLines (x ++ '\n' :: y) = splitLines x ++ splitLines y := by
  induction x with
  | nil => simp [splitLines]
  | cons c x ih =>
    by_cases hc : c = '\n'
    · subst hc
      simp [splitLines, ih]
    · simp only [List.cons_append, splitLines, if_neg hc, List.append_eq]
      rw [ih]
      cases hx : splitLines x with
      | nil => exact absurd hx (splitLines_ne_nil x)
      | cons l ls => simp

theorem splitLines_no_newline {x : Str} (h : '\n' ∉ x) : splitLines x = [x] := by
  induction x with
  | nil => rfl
  | cons c x ih =>
    simp only [List.mem_cons, not_or] at h
    simp only [splitLines, if_neg (Ne.symm h.1)]
    rw [ih h.2]

theorem mem_splitLines {l : Str} {x : Str} (h : l ∈ splitLines x) : '\n' ∉ l := by
  induction x generalizing l with
  | nil =>
    simp only [splitLines, List.mem_singleton] at h
    subst h; simp
  | cons c x ih =>
    simp only [splitLines] at h
    split at h
    · rcases List.mem_cons.mp h with h1 | h1
      · subst h1; simp
      · exact ih h1
    · rename_i hc
      cases hx : splitLines x with
      | nil => exact absurd hx (splitLines_ne_nil x)
      | cons hd tl =>
        rw [hx] at h
        rcases List.mem_cons.mp h with h1 | h1
        · subst h1
          intro hmem
          rcases List.mem_cons.mp hmem with h2 | h2
          · exact hc h2.symm
          · exact ih (hx ▸ List.mem_cons_self hd tl) h2
        · exact ih (hx ▸ List.mem_cons_of_mem hd h1)

theorem joinLines_splitLines (s : Str) : joinLines (splitLines s) = s := by
  induction s with
  | nil => rfl
  | cons c s ih =>
    by_cases hc : c = '\n'
    · subst hc
      simp only [splitLines, if_pos rfl]
      cases hx : splitLines s with
      | nil => exact absurd hx (splitLines_ne_nil s)
      | cons l ls =>
        rw [hx] at ih
        simp only [joinLines]
        cases ls <;> simp_all [joinLines]
    · simp only [splitLines, if_neg hc]
      cases hx : splitLines s with
      | nil => exact absurd hx (splitLines_ne_nil s)
      | cons l ls =>
        rw [hx] at ih
        cases ls with
        | nil => simp_all [joinLines]
        | cons l2 ls2 => simp_all [joinLines]

theorem splitLines_joinLines (L : List Str) (hne : L ≠ [])
    (h : ∀ l ∈ L, '\n' ∉ l) : splitLines (joinLines L) = L := by
  induction L with
  | nil => exact absurd rfl hne
  | cons l ls ih =>
    cases ls with
    | nil =>
      simp only [joinLines]
      exact splitLines_no_newline (h l (List.mem_cons_self _ _))
    | cons l2 ls2 =>
      have hstep : joinLines (l :: l2 :: ls2) = l ++ '\n' :: joinLines (l2 :: ls2) := rfl
      rw [hstep, splitLines_append_newline,
        splitLines_no_newline (h l (List.mem_cons_self _ _)),
        ih (by simp) (fun x hx => h x (List.mem_cons_of_mem _ hx))]
      rfl

theorem trimStr_eq_nil_iff {s : Str} : trimStr s = [] ↔ s.all isWS = true := by
  unfold trimStr
  rw [List.reverse_eq_nil_iff, List.dropWhile_eq_nil_iff]
  constructor
  · intro h
    rw [List.all_eq_true]
    intro c hc
    conv at hc => rw [← List.takeWhile_append_dropWhile (p := isWS) (l := s)]
    rcases List.mem_append.mp hc with h1 | h1
    · exact List.mem_takeWhile_imp h1
    · exact h c (List.mem_reverse.mpr h1)
  · intro h c hc
    rw [List.all_eq_true] at h
    exact h c ((List.dropWhile_sublist _).mem (List.mem_reverse.mp hc))

theorem trimStr_append_cr (x : Str) : trimStr (x ++ ['\r']) = trimStr x := by
  unfold trimStr
  rw [List.dropWhile_append]
  by_cases hd : (List.dropWhile isWS x).isEmpty
  · simp only [hd, if_pos]
    rw [List.isEmpty_iff] at hd
    rw [hd]
    simp [List.dropWhile, isWS]
  · rw [Bool.not_eq_true] at hd
    simp only [hd, Bool.false_eq_true, if_false]
    rw [List.reverse_append]
    simp only [List.reverse_singleton, List.singleton_append]
    have : List.dropWhile isWS ('\r' :: (List.dropWhile isWS x).reverse) =
        List.dropWhile isWS (List.dropWhile isWS x).reverse := by
      simp [List.dropWhile, isWS]
    rw [this]

theorem trimStr_removeSuffixCR (l : Str) : trimStr (removeSuffixCR l) = trimStr l := by
  unfold removeSuffixCR
  split
  · rename_i h
    have hl : l ≠ [] := by
      intro hnil; subst hnil; simp at h
    have : l.dropLast ++ ['\r'] = l := by
      have := List.dropLast_append_getLast hl
      rwa [List.getLast_eq_iff_getLast?_eq_some hl |>.mpr h] at this
    calc trimStr l.dropLast = trimStr (l.dropLast ++ ['\r']) := (trimStr_append_cr _).symm
      _ = trimStr l := by rw [this]
  · rfl

theorem startsWithFence_ne_nil {s : Str} (h : startsWithFence s = true) : s ≠ [] := by
  cases s with
  | nil => simp [startsWithFence] at h
  | cons c rest => simp

theorem isFenceLine_removeSuffixCR (l : Str) :
    isFenceLine (removeSuffixCR l) = isFenceLine l := by
  unfold isFenceLine
  rw [trimStr_removeSuffixCR]

theorem no_newline_removeSuffixCR {l : Str} (h : '\n' ∉ l) : '\n' ∉ removeSuffixCR l := by
  unfold removeSuffixCR
  split
  · exact fun hm => h ((List.dropLast_sublist l).mem hm)
  · exact h

theorem fenceCount_append (a b : List Str) :
    fenceCount (a ++ b) = fenceCount a + fenceCount b :=
  List.countP_append _ _ _

theorem fenceCountStr_appendPara (a b : Str) :
    fenceCountStr (MarkdownSegmenter.appendPara a b) = fenceCountStr a + fenceCountStr b := by
  unfold MarkdownSegmenter.appendPara fenceCountStr
  have h1 : a ++ '\n' :: '\n' :: b = a ++ '\n' :: ('\n' :: b) := rfl
  rw [h1, splitLines_append_newline]
  have h2 : splitLines ('\n' :: b) = [] :: splitLines b := by simp [splitLines]
  rw [h2, fenceCount_append]
  have h3 : fenceCount ([] :: splitLines b) = fenceCount (splitLines b) := by
    simp [fenceCount, List.countP_cons, isFenceLine, trimStr, startsWithFence]
  rw [h3]

theorem fenceCountStr_joinLines (L : List Str) (hne : L ≠ [])
    (h : ∀ l ∈ L, '\n' ∉ l) : fenceCountStr (joinLines L) = fenceCount L := by
  unfold fenceCountStr
  rw [splitLines_joinLines L hne h]

theorem decide_parity_flip (n : Nat) : decide ((n + 1) % 2 = 1) = !decide (n % 2 = 1) := by
  rcases Nat.mod_two_eq_zero_or_one n with h | h <;> simp [Nat.add_mod, h]

/-! ## Blankness lemmas -/

theorem joinLines_append_single (b : List Str) (l : Str) :
    joinLines (b ++ [l]) = if b = [] then l else joinLines b ++ '\n' :: l := by
  induction b with
  | nil => simp [joinLines]
  | cons x xs ih =>
    cases xs with
    | nil => simp [joinLines]
    | cons y ys =>
      have h1 : joinLines ((x :: y :: ys) ++ [l]) = x ++ '\n' :: joinLines ((y :: ys) ++ [l]) := rfl
      have h2 : joinLines (x :: y :: ys) = x ++ '\n' :: joinLines (y :: ys) := rfl
      rw [h1, h2, ih]
      simp

theorem all_isWS_joinLines {L : List Str} (h : ∀ l ∈ L, l.all isWS = true) :
    (joinLines L).all isWS = true := by
  induction L with
  | nil => rfl
  | cons x xs ih =>
    cases xs with
    | nil => exact h x (List.mem_cons_self _ _)
    | cons y ys =>
      have hstep : joinLines (x :: y :: ys) = x ++ '\n' :: joinLines (y :: ys) := rfl
      rw [hstep, List.all_append]
      have hx := h x (List.mem_cons_self _ _)
      have hrest := ih (fun l hl => h l (List.mem_cons_of_mem _ hl))
      simp [hx, hrest, isWS]

theorem trim_ne_nil_iff_not_all {s : Str} : trimStr s ≠ [] ↔ s.all isWS = false := by
  constructor
  · intro h
    rw [← Bool.not_eq_true]
    intro hc
    exact h (trimStr_eq_nil_iff.mpr hc)
  · intro h hc
    rw [trimStr_eq_nil_iff] at hc
    rw [hc] at h
    simp at h

theorem not_all_isWS_joinLines {L : List Str} {l : Str} :
    l ∈ L → l.all isWS = false → (joinLines L).all isWS = false := by
  induction L with
  | nil => intro h; simp at h
  | cons x xs ih =>
    intro hmem h
    cases xs with
    | nil =>
      rw [List.mem_singleton] at hmem
      subst hmem
      simpa [joinLines] using h
    | cons y ys =>
      have hstep : joinLines (x :: y :: ys) = x ++ '\n' :: joinLines (y :: ys) := rfl
      rw [hstep, List.all_append]
      rcases List.mem_cons.mp hmem with h1 | h1
      · subst h1
        simp [h]
      · have hrec := ih h1 h
        simp [hrec]

theorem nonblank_join_append {buffer : List Str} {l : Str}
    (h : trimStr l ≠ [] ∨ trimStr (joinLines buffer) ≠ []) :
    trimStr (joinLines (buffer ++ [l])) ≠ [] := by
  rw [joinLines_append_single]
  by_cases hb : buffer = []
  · subst hb
    simp only [if_pos rfl]
    rcases h with h | h
    · exact h
    · simp [joinLines, trimStr, List.dropWhile] at h
  · rw [if_neg hb]
    rw [trim_ne_nil_iff_not_all]
    rcases h with h | h
    · rw [trim_ne_nil_iff_not_all] at h
      rw [List.all_append, List.all_cons, h]
      simp
    · rw [trim_ne_nil_iff_not_all] at h
      rw [List.all_append, h]
      simp

theorem nonblank_of_fence_mem {buffer : List Str} {l : Str} (hmem : l ∈ buffer)
    (hf : isFenceLine l = true) : trimStr (joinLines buffer) ≠ [] := by
  have hl : trimStr l ≠ [] := startsWithFence_ne_nil hf
  rw [trim_ne_nil_iff_not_all] at hl ⊢
  exact not_all_isWS_joinLines hmem hl

/-! ## Step lemmas for the Kotlin segmenter scan -/

theorem mem_flushParagraph {p : List Str} {buffer : List Str}
    (h : p ∈ MarkdownSegmenter.flushParagraph buffer) :
    p = buffer ∧ buffer ≠ [] ∧ trimStr (joinLines buffer) ≠ [] := by
  unfold MarkdownSegmenter.flushParagraph at h
  by_cases h1 : buffer = []
  · rw [if_pos h1] at h
    simp at h
  · rw [if_neg h1] at h
    by_cases h2 : trimStr (joinLines buffer) = []
    · rw [if_pos h2] at h
      simp at h
    · rw [if_neg h2] at h
      rw [List.mem_singleton] at h
      exact ⟨h, h1, h2⟩

theorem flushParagraph_of_nonblank {buffer : List Str} (hne : buffer ≠ [])
    (hnb : trimStr (joinLines buffer) ≠ []) :
    MarkdownSegmenter.flushParagraph buffer = [buffer] := by
  unfold MarkdownSegmenter.flushParagraph
  rw [if_neg hne, if_neg hnb]

theorem scanLines_fence_step {raw : Str} (rest buffer : List Str) (inFence : Bool)
    (hF : startsWithFence (trimStr (removeSuffixCR raw)) = true) :
    MarkdownSegmenter.scanLines (raw :: rest) buffer inFence =
      MarkdownSegmenter.scanLines rest (buffer ++ [removeSuffixCR raw]) (!inFence) := by
  simp only [MarkdownSegmenter.scanLines]
  rw [if_pos hF]

theorem scanLines_blank_step {raw : Str} (rest buffer : List Str)
    (hF : startsWithFence (trimStr (removeSuffixCR raw)) = false)
    (htr : trimStr (removeSuffixCR raw) = []) :
    MarkdownSegmenter.scanLines (raw :: rest) buffer false =
      MarkdownSegmenter.flushParagraph buffer ++
        MarkdownSegmenter.scanLines rest [] false := by
  simp only [MarkdownSegmenter.scanLines]
  rw [if_neg (by rw [hF]; exact Bool.false_ne_true), if_pos (by simp [htr])]

theorem scanLines_other_step {raw : Str} (rest buffer : List Str) (inFence : Bool)
    (hF : startsWithFence (trimStr (removeSuffixCR raw)) = false)
    (h : inFence = true ∨ trimStr (removeSuffixCR raw) ≠ []) :
    MarkdownSegmenter.scanLines (raw :: rest) buffer inFence =
      MarkdownSegmenter.scanLines rest (buffer ++ [removeSuffixCR raw]) inFence := by
  simp only [MarkdownSegmenter.scanLines]
  rw [if_neg (by rw [hF]; exact Bool.false_ne_true)]
  rcases h with h | h
  · rw [if_neg (by simp [h])]
  · rw [if_neg (by simp [h])]

/-- All invariants of the Kotlin paragraph scan at once: every emitted
paragraph has an even fence count (given the remaining total is balanced), is
non-empty, and consists of newline-free lines. -/

theorem scanLines_spec (lines : List Str) : ∀ (buffer : List Str) (inFence : Bool),
    (∀ l ∈ buffer, '\n' ∉ l) →
    (∀ l ∈ lines, '\n' ∉ l) →
    inFence = decide (fenceCount buffer % 2 = 1) →
    (fenceCount buffer + fenceCount lines) % 2 = 0 →
    ∀ p ∈ MarkdownSegmenter.scanLines lines buffer inFence,
      fenceCount p % 2 = 0 ∧ p ≠ [] ∧ ∀ l ∈ p, '\n' ∉ l := by
  induction lines with
  | nil =>
    intro buffer inFence h1 _ h3 h4 p hp
    simp only [MarkdownSegmenter.scanLines] at hp
    obtain ⟨hpb, hne, _⟩ := mem_flushParagraph hp
    subst hpb
    refine ⟨?_, hne, h1⟩
    simpa [fenceCount, List.countP_nil] using h4
  | cons raw rest ih =>
    intro buffer inFence h1 h2 h3 h4 p hp
    have hlnl : '\n' ∉ removeSuffixCR raw :=
      no_newline_removeSuffixCR (h2 raw (List.mem_cons_self _ _))
    have h2r : ∀ l ∈ rest, '\n' ∉ l := fun l hl => h2 l (List.mem_cons_of_mem _ hl)
    have htrim : trimStr (removeSuffixCR raw) = trimStr raw := trimStr_removeSuffixCR raw
    by_cases hF : startsWithFence (trimStr (removeSuffixCR raw)) = true
    · have hfr : isFenceLine raw = true := by
        unfold isFenceLine
        rw [← htrim]
        exact hF
      have hcnt : fenceCount (raw :: rest) = fenceCount rest + 1 := by
        simp [fenceCount, List.countP_cons, hfr]
      rw [scanLines_fence_step rest buffer inFence hF] at hp
      have hbcnt : fenceCount (buffer ++ [removeSuffixCR raw]) = fenceCount buffer + 1 := by
        rw [fenceCount_append]
        have : isFenceLine (removeSuffixCR raw) = true := by
          unfold isFenceLine
          exact hF
        simp [fenceCount, List.countP_cons, this]
      refine ih (buffer ++ [removeSuffixCR raw]) (!inFence) ?_ h2r ?_ ?_ p hp
      · intro l hl
        rcases List.mem_append.mp hl with hl | hl
        · exact h1 l hl
        · rw [List.mem_singleton] at hl
          subst hl
          exact hlnl
      · rw [hbcnt, decide_parity_flip, ← h3]
      · rw [hbcnt]
        rw [hcnt] at h4
        omega
    · have hF' : startsWithFence (trimStr (removeSuffixCR raw)) = false :=
        Bool.not_eq_true _ ▸ (by simpa using hF)
      have hfr : isFenceLine raw = false := by
        unfold isFenceLine
        rw [← htrim]
        exact hF'
      have hcnt : fenceCount (raw :: rest) = fenceCount rest := by
        simp [fenceCount, List.countP_cons, hfr]
      rw [hcnt] at h4
      by_cases hblank : trimStr (removeSuffixCR raw) = []
      · by_cases hif : inFence = true
        · -- blank line inside a fence: buffered
          rw [scanLines_other_step rest buffer inFence hF' (Or.inl hif)] at hp
          have hbcnt : fenceCount (buffer ++ [removeSuffixCR raw]) = fenceCount buffer := by
            rw [fenceCount_append]
            have : isFenceLine (removeSuffixCR raw) = false := by
              unfold isFenceLine
              exact hF'
            simp [fenceCount, List.countP_cons, this]
          refine ih _ inFence ?_ h2r (by rw [hbcnt]; exact h3) (by rw [hbcnt]; omega) p hp
          intro l hl
          rcases List.mem_append.mp hl with hl | hl
          · exact h1 l hl
          · rw [List.mem_singleton] at hl
            subst hl
            exact hlnl
        · -- flush point
          have hif' : inFence = false := by
            cases inFence
            · rfl
            · exact absurd rfl hif
          subst hif'
          rw [scanLines_blank_step rest buffer hF' hblank] at hp
          have hbeven : fenceCount buffer % 2 = 0 := by
            have := h3.symm
            rw [decide_eq_false_iff_not] at this
            omega
          rcases List.mem_append.mp hp with hp | hp
          · obtain ⟨hpb, hne, _⟩ := mem_flushParagraph hp
            subst hpb
            exact ⟨hbeven, hne, h1⟩
          · refine ih [] false (by simp) h2r (by simp [fenceCount]) ?_ p hp
            have h0 : fenceCount ([] : List Str) = 0 := rfl
            rw [h0, Nat.zero_add]
            omega
      · -- non-blank, non-fence line: buffered
        rw [scanLines_other_step rest buffer inFence hF' (Or.inr hblank)] at hp
        have hbcnt : fenceCount (buffer ++ [removeSuffixCR raw]) = fenceCount buffer := by
          rw [fenceCount_append]
          have : isFenceLine (removeSuffixCR raw) = false := by
            unfold isFenceLine
            exact hF'
          simp [fenceCount, List.countP_cons, this]
        refine ih _ inFence ?_ h2r (by rw [hbcnt]; exact h3) (by rw [hbcnt]; omega) p hp
        intro l hl
        rcases List.mem_append.mp hl with hl | hl
        · exact h1 l hl
        · rw [List.mem_singleton] at hl
          subst hl
          exact hlnl

/-- The concatenation of the scanned paragraphs is exactly the kept lines:
no flush point ever falls on a line inside a fence (blank or not), and no
kept line is lost. -/

theorem scanLines_flatten (lines : List Str) : ∀ (buffer : List Str) (inFence : Bool),
    (inFence = true → ∃ l ∈ buffer, isFenceLine l = true) →
    (buffer ≠ [] → trimStr (joinLines buffer) ≠ []) →
    (MarkdownSegmenter.scanLines lines buffer inFence).flatten =
      buffer ++ keptLines lines inFence := by
  induction lines with
  | nil =>
    intro buffer inFence _ hb
    simp only [MarkdownSegmenter.scanLines, keptLines, List.append_nil]
    by_cases hne : buffer = []
    · subst hne
      rfl
    · rw [flushParagraph_of_nonblank hne (hb hne)]
      simp
  | cons raw rest ih =>
    intro buffer inFence hf hb
    have htrim : trimStr (removeSuffixCR raw) = trimStr raw := trimStr_removeSuffixCR raw
    by_cases hF : startsWithFence (trimStr (removeSuffixCR raw)) = true
    · rw [scanLines_fence_step rest buffer inFence hF]
      have hkept : keptLines (raw :: rest) inFence =
          removeSuffixCR raw :: keptLines rest (!inFence) := by
        simp only [keptLines]
        rw [if_pos hF]
      rw [hkept, ih (buffer ++ [removeSuffixCR raw]) (!inFence) ?_ ?_]
      · simp
      · intro _
        exact ⟨removeSuffixCR raw, List.mem_append_right _ (List.mem_singleton.mpr rfl), hF⟩
      · intro _
        exact nonblank_join_append (Or.inl (startsWithFence_ne_nil hF))
    · have hF' : startsWithFence (trimStr (removeSuffixCR raw)) = false := by
        simpa using hF
      by_cases hblank : trimStr (removeSuffixCR raw) = []
      · by_cases hif : inFence = true
        · -- blank line inside a fence: kept, not a flush point
          rw [scanLines_other_step rest buffer inFence hF' (Or.inl hif)]
          have hkept : keptLines (raw :: rest) inFence =
              removeSuffixCR raw :: keptLines rest inFence := by
            simp only [keptLines]
            rw [if_neg (by rw [hF']; exact Bool.false_ne_true), if_neg (by simp [hif])]
          obtain ⟨lf, hlf, hlff⟩ := hf hif
          rw [hkept, ih (buffer ++ [removeSuffixCR raw]) inFence ?_ ?_]
          · simp
          · intro _
            exact ⟨lf, List.mem_append_left _ hlf, hlff⟩
          · intro _
            exact nonblank_join_append (Or.inr (nonblank_of_fence_mem hlf hlff))
        · have hif' : inFence = false := by
            cases inFence
            · rfl
            · exact absurd rfl hif
          subst hif'
          rw [scanLines_blank_step rest buffer hF' hblank]
          have hkept : keptLines (raw :: rest) false = keptLines rest false := by
            simp only [keptLines]
            rw [if_neg (by rw [hF']; exact Bool.false_ne_true), if_pos (by simp [hblank])]
          rw [List.flatten_append, hkept, ih [] false (by simp) (by simp)]
          by_cases hne : buffer = []
          · subst hne
            rfl
          · rw [flushParagraph_of_nonblank hne (hb hne)]
            simp
      · rw [scanLines_other_step rest buffer inFence hF' (Or.inr hblank)]
        have hkept : keptLines (raw :: rest) inFence =
            removeSuffixCR raw :: keptLines rest inFence := by
          simp only [keptLines]
          rw [if_neg (by rw [hF']; exact Bool.false_ne_true), if_neg (by simp [hblank])]
        rw [hkept, ih (buffer ++ [removeSuffixCR raw]) inFence ?_ ?_]
        · simp
        · intro hift
          obtain ⟨lf, hlf, hlff⟩ := hf hift
          exact ⟨lf, List.mem_append_left _ hlf, hlff⟩
        · intro _
          exact nonblank_join_append (Or.inl hblank)

/-! ## Even fence parity through the adaptive merge -/

theorem fenceCountStr_nil : fenceCountStr [] = 0 := rfl

theorem mergeGo_even (ps : List Str) : ∀ (current : Str) (segments : List Str),
    (∀ p ∈ ps, fenceCountStr p % 2 = 0) →
    fenceCountStr current % 2 = 0 →
    (∀ s ∈ segments, fenceCountStr s % 2 = 0) →
    ∀ s ∈ MarkdownSegmenter.mergeGo ps current segments, fenceCountStr s % 2 = 0 := by
  induction ps with
  | nil =>
    intro current segments _ hcur hsegs s hs
    simp only [MarkdownSegmenter.mergeGo] at hs
    by_cases hc : current = []
    · rw [if_pos hc] at hs
      exact hsegs s hs
    · rw [if_neg hc] at hs
      by_cases hshort : current.length < MarkdownSegmenter.minChars ∧ segments ≠ []
      · rw [if_pos hshort] at hs
        cases hlast : segments.getLast? with
        | none =>
          rw [hlast] at hs
          rcases List.mem_append.mp hs with h | h
          · exact hsegs s h
          · rw [List.mem_singleton] at h
            subst h
            exact hcur
        | some lastSeg =>
          rw [hlast] at hs
          rcases List.mem_append.mp hs with h | h
          · exact hsegs s ((List.dropLast_sublist _).mem h)
          · rw [List.mem_singleton] at h
            subst h
            rw [fenceCountStr_appendPara]
            have hlm : lastSeg ∈ segments := by
              have hne : segments ≠ [] := by
                intro h0
                rw [h0] at hlast
                simp at hlast
              have hlg := (List.getLast_eq_iff_getLast?_eq_some hne).mpr hlast
              rw [← hlg]
              exact List.getLast_mem hne
            have := hsegs lastSeg hlm
            omega
      · rw [if_neg hshort] at hs
        rcases List.mem_append.mp hs with h | h
        · exact hsegs s h
        · rw [List.mem_singleton] at h
          subst h
          exact hcur
  | cons p ps ih =>
    intro current segments hps hcur hsegs s hs
    have hp : fenceCountStr p % 2 = 0 := hps p (List.mem_cons_self _ _)
    have hps' : ∀ q ∈ ps, fenceCountStr q % 2 = 0 :=
      fun q hq => hps q (List.mem_cons_of_mem _ hq)
    simp only [MarkdownSegmenter.mergeGo] at hs
    by_cases h1 : current = [] ∧ MarkdownSegmenter.minChars ≤ p.length
    · rw [if_pos h1] at hs
      refine ih [] _ hps' (by rw [fenceCountStr_nil]) ?_ s hs
      intro t ht
      rcases List.mem_append.mp ht with h | h
      · exact hsegs t h
      · rw [List.mem_singleton] at h
        subst h
        exact hp
    · rw [if_neg h1] at hs
      by_cases h2 : current = []
      · rw [if_pos h2] at hs
        exact ih p segments hps' hp hsegs s hs
      · rw [if_neg h2] at hs
        by_cases h3 : current.length < MarkdownSegmenter.minChars
        · rw [if_pos h3] at hs
          have hmerge : fenceCountStr (MarkdownSegmenter.appendPara current p) % 2 = 0 := by
            rw [fenceCountStr_appendPara]
            omega
          by_cases h4 : MarkdownSegmenter.minChars ≤ (MarkdownSegmenter.appendPara current p).length
          · rw [if_pos h4] at hs
            refine ih [] _ hps' (by rw [fenceCountStr_nil]) ?_ s hs
            intro t ht
            rcases List.mem_append.mp ht with h | h
            · exact hsegs t h
            · rw [List.mem_singleton] at h
              subst h
              exact hmerge
          · rw [if_neg h4] at hs
            exact ih _ segments hps' hmerge hsegs s hs
        · rw [if_neg h3] at hs
          by_cases h4 : MarkdownSegmenter.minChars ≤ p.length
          · rw [if_pos h4] at hs
            refine ih [] _ hps' (by rw [fenceCountStr_nil]) ?_ s hs
            intro t ht
            rcases List.mem_append.mp ht with h | h
            · exact hsegs t h
            · rcases List.mem_cons.mp h with h | h
              · subst h
                exact hcur
              · rw [List.mem_singleton] at h
                subst h
                exact hp
          · rw [if_neg h4] at hs
            refine ih p _ hps' hp ?_ s hs
            intro t ht
            rcases List.mem_append.mp ht with h | h
            · exact hsegs t h
            · rw [List.mem_singleton] at h
              subst h
              exact hcur

/-! ## Fence parity for the TypeScript scan -/

theorem mem_flushTS {p : List Str} {buffer : List Str}
    (h : p ∈ TSService.flushTS buffer) : p = buffer ∧ buffer ≠ [] := by
  unfold TSService.flushTS at h
  by_cases h1 : buffer = []
  · rw [if_pos h1] at h
    simp at h
  · rw [if_neg h1] at h
    rw [List.mem_singleton] at h
    exact ⟨h, h1⟩

theorem scanTS_fence_step {line : Str} (rest buffer : List Str) (inFence : Bool)
    (hF : startsWithFence (trimStr line) = true) :
    TSService.scanTS (line :: rest) buffer inFence =
      TSService.scanTS rest (buffer ++ [line]) (!inFence) := by
  simp only [TSService.scanTS]
  rw [if_pos hF]

theorem scanTS_blank_step {line : Str} (rest buffer : List Str)
    (hF : startsWithFence (trimStr line) = false) (htr : trimStr line = []) :
    TSService.scanTS (line :: rest) buffer false =
      TSService.flushTS buffer ++ TSService.scanTS rest [] false := by
  simp only [TSService.scanTS]
  rw [if_neg (by rw [hF]; exact Bool.false_ne_true), if_pos (by simp [htr])]

theorem scanTS_other_step {line : Str} (rest buffer : List Str) (inFence : Bool)
    (hF : startsWithFence (trimStr line) = false)
    (h : inFence = true ∨ trimStr line ≠ []) :
    TSService.scanTS (line :: rest) buffer inFence =
      TSService.scanTS rest (buffer ++ [line]) inFence := by
  simp only [TSService.scanTS]
  rw [if_neg (by rw [hF]; exact Bool.false_ne_true)]
  rcases h with h | h
  · rw [if_neg (by simp [h])]
  · rw [if_neg (by simp [h])]

theorem scanTS_spec (lines : List Str) : ∀ (buffer : List Str) (inFence : Bool),
    (∀ l ∈ buffer, '\n' ∉ l) →
    (∀ l ∈ lines, '\n' ∉ l) →
    inFence = decide (fenceCount buffer % 2 = 1) →
    (fenceCount buffer + fenceCount lines) % 2 = 0 →
    ∀ p ∈ TSService.scanTS lines buffer inFence,
      fenceCount p % 2 = 0 ∧ p ≠ [] ∧ ∀ l ∈ p, '\n' ∉ l := by
  induction lines with
  | nil =>
    intro buffer inFence h1 _ h3 h4 p hp
    simp only [TSService.scanTS] at hp
    obtain ⟨hpb, hne⟩ := mem_flushTS hp
    subst hpb
    refine ⟨?_, hne, h1⟩
    simpa [fenceCount, List.countP_nil] using h4
  | cons line rest ih =>
    intro buffer inFence h1 h2 h3 h4 p hp
    have hlnl : '\n' ∉ line := h2 line (List.mem_cons_self _ _)
    have h2r : ∀ l ∈ rest, '\n' ∉ l := fun l hl => h2 l (List.mem_cons_of_mem _ hl)
    have hbuf : ∀ l ∈ buffer ++ [line], '\n' ∉ l := by
      intro l hl
      rcases List.mem_append.mp hl with hl | hl
      · exact h1 l hl
      · rw [List.mem_singleton] at hl
        subst hl
        exact hlnl
    by_cases hF : startsWithFence (trimStr line) = true
    · have hfl : isFenceLine line = true := hF
      have hcnt : fenceCount (line :: rest) = fenceCount rest + 1 := by
        simp [fenceCount, List.countP_cons, hfl]
      rw [scanTS_fence_step rest buffer inFence hF] at hp
      have hbcnt : fenceCount (buffer ++ [line]) = fenceCount buffer + 1 := by
        rw [fenceCount_append]
        simp [fenceCount, List.countP_cons, hfl]
      refine ih (buffer ++ [line]) (!inFence) hbuf h2r ?_ ?_ p hp
      · rw [hbcnt, decide_parity_flip, ← h3]
      · rw [hbcnt]
        rw [hcnt] at h4
        omega
    · have hF' : startsWithFence (trimStr line) = false := by
        simpa using hF
      have hfl : isFenceLine line = false := hF'
      have hcnt : fenceCount (line :: rest) = fenceCount rest := by
        simp [fenceCount, List.countP_cons, hfl]
      rw [hcnt] at h4
      have hbcnt : fenceCount (buffer ++ [line]) = fenceCount buffer := by
        rw [fenceCount_append]
        simp [fenceCount, List.countP_cons, hfl]
      by_cases hblank : trimStr line = []
      · by_cases hif : inFence = true
        · rw [scanTS_other_step rest buffer inFence hF' (Or.inl hif)] at hp
          exact ih _ inFence hbuf h2r (by rw [hbcnt]; exact h3) (by rw [hbcnt]; omega) p hp
        · have hif' : inFence = false := by
            cases inFence
            · rfl
            · exact absurd rfl hif
          subst hif'
          rw [scanTS_blank_step rest buffer hF' hblank] at hp
          have hbeven : fenceCount buffer % 2 = 0 := by
            have := h3.symm
            rw [decide_eq_false_iff_not] at this
            omega
          rcases List.mem_append.mp hp with hp | hp
          · obtain ⟨hpb, hne⟩ := mem_flushTS hp
            subst hpb
            exact ⟨hbeven, hne, h1⟩
          · refine ih [] false (by simp) h2r (by simp [fenceCount]) ?_ p hp
            have h0 : fenceCount ([] : List Str) = 0 := rfl
            rw [h0, Nat.zero_add]
            omega
      · rw [scanTS_other_step rest buffer inFence hF' (Or.inr hblank)] at hp
        exact ih _ inFence hbuf h2r (by rw [hbcnt]; exact h3) (by rw [hbcnt]; omega) p hp

theorem fenceCount_map_removeCR (L : List Str) :
    fenceCount (L.map removeSuffixCR) = fenceCount L := by
  induction L with
  | nil => rfl
  | cons x xs ih =>
    simp only [List.map_cons, fenceCount, List.countP_cons] at *
    rw [isFenceLine_removeSuffixCR]
    omega

/-- C7: for every input whose code fences are balanced (an even number of
fence-marker lines), neither segmenter ever places a segment boundary strictly
between a fence-open line and its matching fence-close line: every emitted
segment contains an even number of fence-marker lines, in both the Kotlin
`MarkdownSegmenter.split` and the TypeScript `splitIntoSegments`.  Moreover
(unconditionally on balance) a blank line inside a fence is never treated as a
flush point: the scanned paragraphs preserve exactly the kept lines, where
only blank lines outside fences are dropped as separators. -/

theorem C7_fence_integrity (md : Str) (hbal : fenceCountStr md % 2 = 0) :
    (∀ s ∈ MarkdownSegmenter.split md, fenceCountStr s % 2 = 0) ∧
    (∀ s ∈ TSService.splitIntoSegments md, fenceCountStr s % 2 = 0) ∧
    (MarkdownSegmenter.scanLines (splitLines md) [] false).flatten =
      keptLines (splitLines md) false := by
  refine ⟨?_, ?_, ?_⟩
  · intro s hs
    simp only [MarkdownSegmenter.split] at hs
    by_cases hpe : MarkdownSegmenter.paragraphsOf md = []
    · rw [if_pos hpe] at hs
      by_cases htr : trimStr md = []
      · rw [if_pos htr] at hs
        simp at hs
      · rw [if_neg htr] at hs
        rw [List.mem_singleton] at hs
        subst hs
        exact hbal
    · rw [if_neg hpe] at hs
      refine mergeGo_even _ [] [] ?_ (by rw [fenceCountStr_nil]) (by simp) s hs
      intro p hp
      unfold MarkdownSegmenter.paragraphsOf at hp
      obtain ⟨p', hp', rfl⟩ := List.mem_map.mp hp
      have hspec := scanLines_spec (splitLines md) [] false (by simp)
        (fun l hl => mem_splitLines hl) (by decide) ?_ p' hp'
      · obtain ⟨heven, hne, hnl⟩ := hspec
        rw [fenceCountStr_joinLines p' hne hnl]
        exact heven
      · have h0 : fenceCount ([] : List Str) = 0 := rfl
        rw [h0, Nat.zero_add]
        exact hbal
  · intro s hs
    simp only [TSService.splitIntoSegments] at hs
    by_cases hdeg : (TSService.scanTS ((splitLines md).map removeSuffixCR) [] false).map
        joinLines = [] ∧ trimStr md ≠ []
    · rw [if_pos hdeg] at hs
      rw [List.mem_singleton] at hs
      subst hs
      exact hbal
    · rw [if_neg hdeg] at hs
      obtain ⟨p', hp', rfl⟩ := List.mem_map.mp hs
      have hspec := scanTS_spec ((splitLines md).map removeSuffixCR) [] false (by simp)
        ?_ (by decide) ?_ p' hp'
      · obtain ⟨heven, hne, hnl⟩ := hspec
        rw [fenceCountStr_joinLines p' hne hnl]
        exact heven
      · intro l hl
        obtain ⟨l0, hl0, rfl⟩ := List.mem_map.mp hl
        exact no_newline_removeSuffixCR (mem_splitLines hl0)
      · have h0 : fenceCount ([] : List Str) = 0 := rfl
        rw [h0, Nat.zero_add, fenceCount_map_removeCR]
        exact hbal
  · refine scanLines_flatten (splitLines md) [] false ?_ ?_
    · intro h
      exact absurd h Bool.false_ne_true
    · intro h
      exact absurd rfl h

/-- Witness for C7 at a concrete balanced-fence document. -/

theorem C7_fence_integrity_witness :
    fenceCountStr (strLit "a\n```\nx\n\n y\n```\nb") % 2 = 0 ∧
    ((∀ s ∈ MarkdownSegmenter.split (strLit "a\n```\nx\n\n y\n```\nb"),
        fenceCountStr s % 2 = 0) ∧
      (∀ s ∈ TSService.splitIntoSegments (strLit "a\n```\nx\n\n y\n```\nb"),
        fenceCountStr s % 2 = 0) ∧
      (MarkdownSegmenter.scanLines (splitLines (strLit "a\n```\nx\n\n y\n```\nb")) [] false).flatten =
        keptLines (splitLines (strLit "a\n```\nx\n\n y\n```\nb")) false) :=
  ⟨by decide, C7_fence_integrity (strLit "a\n```\nx\n\n y\n```\nb") (by decide)⟩

theorem le_maxLen {p : Str} {ps : List Str} (h : p ∈ ps) : p.length ≤ maxLen ps := by
  induction ps with
  | nil => simp at h
  | cons q qs ih =>
    rcases List.mem_cons.mp h with h | h
    · subst h
      exact le_max_left _ _
    · exact le_trans (ih h) (le_max_right _ _)

theorem mem_of_getLast?_eq {α : Type} {l : List α} {a : α} (h : l.getLast? = some a) :
    a ∈ l := by
  have hne : l ≠ [] := by
    intro h0
    rw [h0] at h
    simp at h
  have hlg := (List.getLast_eq_iff_getLast?_eq_some hne).mpr h
  rw [← hlg]
  exact List.getLast_mem hne

theorem removeSuffixCR_of_not_mem {l : Str} (h : '\r' ∉ l) : removeSuffixCR l = l := by
  unfold removeSuffixCR
  split
  · rename_i h1
    exact absurd (mem_of_getLast?_eq h1) h
  · rfl

theorem keptLines_eq_nil {lines : List Str} (h : keptLines lines false = []) :
    ∀ l ∈ lines, trimStr (removeSuffixCR l) = [] := by
  induction lines with
  | nil => simp
  | cons raw rest ih =>
    intro l hl
    simp only [keptLines] at h
    by_cases hF : startsWithFence (trimStr (removeSuffixCR raw)) = true
    · rw [if_pos hF] at h
      simp at h
    · rw [if_neg hF] at h
      by_cases hb : trimStr (removeSuffixCR raw) = []
      · rw [if_pos (by simp [hb])] at h
        rcases List.mem_cons.mp hl with h1 | h1
        · subst h1
          exact hb
        · exact ih h l h1
      · rw [if_neg (by simp [hb])] at h
        simp at h

theorem paragraphsOf_ne_nil {md : Str} (h : trimStr md ≠ []) :
    MarkdownSegmenter.paragraphsOf md ≠ [] := by
  intro hpe
  unfold MarkdownSegmenter.paragraphsOf at hpe
  rw [List.map_eq_nil_iff] at hpe
  have hflat := scanLines_flatten (splitLines md) [] false
    (fun h0 => absurd h0 Bool.false_ne_true) (fun h0 => absurd rfl h0)
  rw [hpe] at hflat
  have hkept : keptLines (splitLines md) false = [] := by simpa using hflat.symm
  have hall := keptLines_eq_nil hkept
  refine h ?_
  rw [trimStr_eq_nil_iff]
  have hjoin : joinLines (splitLines md) = md := joinLines_splitLines md
  rw [← hjoin]
  apply all_isWS_joinLines
  intro l hl
  have h1 := hall l hl
  rw [trimStr_removeSuffixCR] at h1
  exact trimStr_eq_nil_iff.mp h1

theorem mergeGo_bound (ps : List Str) : ∀ (current : Str) (segments : List Str) (B : Nat),
    (∀ p ∈ ps, p.length ≤ B) →
    current.length < MarkdownSegmenter.minChars →
    (∀ s ∈ segments, s.length ≤ 501 + B) →
    ∀ s ∈ MarkdownSegmenter.mergeGo ps current segments, s.length ≤ 1002 + B := by
  induction ps with
  | nil =>
    intro current segments B _ hcur hsegs s hs
    simp only [MarkdownSegmenter.mergeGo] at hs
    by_cases hc : current = []
    · rw [if_pos hc] at hs
      exact le_trans (hsegs s hs) (by omega)
    · rw [if_neg hc] at hs
      by_cases hshort : current.length < MarkdownSegmenter.minChars ∧ segments ≠ []
      · rw [if_pos hshort] at hs
        cases hlast : segments.getLast? with
        | none =>
          rw [hlast] at hs
          rcases List.mem_append.mp hs with h | h
          · exact le_trans (hsegs s h) (by omega)
          · rw [List.mem_singleton] at h
            subst h
            simp only [MarkdownSegmenter.minChars] at hcur
            omega
        | some lastSeg =>
          rw [hlast] at hs
          rcases List.mem_append.mp hs with h | h
          · exact le_trans (hsegs s ((List.dropLast_sublist _).mem h)) (by omega)
          · rw [List.mem_singleton] at h
            subst h
            have hlm : lastSeg ∈ segments := mem_of_getLast?_eq hlast
            have h1 := hsegs lastSeg hlm
            simp only [MarkdownSegmenter.appendPara, MarkdownSegmenter.minChars] at *
            simp only [List.length_append, List.length_cons]
            omega
      · rw [if_neg hshort] at hs
        rcases List.mem_append.mp hs with h | h
        · exact le_trans (hsegs s h) (by omega)
        · rw [List.mem_singleton] at h
          subst h
          simp only [MarkdownSegmenter.minChars] at hcur
          omega
  | cons p ps ih =>
    intro current segments B hps hcur hsegs s hs
    have hp : p.length ≤ B := hps p (List.mem_cons_self _ _)
    have hps' : ∀ q ∈ ps, q.length ≤ B := fun q hq => hps q (List.mem_cons_of_mem _ hq)
    simp only [MarkdownSegmenter.mergeGo] at hs
    by_cases h1 : current = [] ∧ MarkdownSegmenter.minChars ≤ p.length
    · rw [if_pos h1] at hs
      refine ih [] _ B hps' (by simp [MarkdownSegmenter.minChars]) ?_ s hs
      intro t ht
      rcases List.mem_append.mp ht with h | h
      · exact hsegs t h
      · rw [List.mem_singleton] at h
        subst h
        omega
    · rw [if_neg h1] at hs
      by_cases h2 : current = []
      · rw [if_pos h2] at hs
        have hplt : p.length < MarkdownSegmenter.minChars := by
          rcases Nat.lt_or_ge p.length MarkdownSegmenter.minChars with h | h
          · exact h
          · exact absurd ⟨h2, h⟩ h1
        exact ih p segments B hps' hplt hsegs s hs
      · rw [if_neg h2] at hs
        rw [if_pos hcur] at hs
        have hcur2 : (MarkdownSegmenter.appendPara current p).length ≤ 501 + B := by
          simp only [MarkdownSegmenter.appendPara, List.length_append, List.length_cons]
          simp only [MarkdownSegmenter.minChars] at hcur
          omega
        by_cases h4 : MarkdownSegmenter.minChars ≤ (MarkdownSegmenter.appendPara current p).length
        · rw [if_pos h4] at hs
          refine ih [] _ B hps' (by simp [MarkdownSegmenter.minChars]) ?_ s hs
          intro t ht
          rcases List.mem_append.mp ht with h | h
          · exact hsegs t h
          · rw [List.mem_singleton] at h
            subst h
            exact hcur2
        · rw [if_neg h4] at hs
          refine ih _ segments B hps' ?_ hsegs s hs
          omega

/-- C6 (amended): with adaptive merging there is no flush-before-merge and no
hard 1400-character cap; what does hold is that every emitted segment is at
most 1002 characters longer than the longest pre-merge paragraph (the buffer
is flushed only after appending, once it reaches the 500-character target,
and a short trailing buffer may additionally be appended to the previous
segment). -/

theorem C6_adaptive_merge_bound (md : Str) :
    ∀ s ∈ MarkdownSegmenter.split md,
      s.length ≤ 1002 + maxLen (MarkdownSegmenter.paragraphsOf md) := by
  intro s hs
  simp only [MarkdownSegmenter.split] at hs
  by_cases hpe : MarkdownSegmenter.paragraphsOf md = []
  · rw [if_pos hpe] at hs
    by_cases htr : trimStr md = []
    · rw [if_pos htr] at hs
      simp at hs
    · exact absurd hpe (paragraphsOf_ne_nil htr)
  · rw [if_neg hpe] at hs
    exact mergeGo_bound _ [] [] _ (fun p hp => le_maxLen hp)
      (by simp [MarkdownSegmenter.minChars]) (by simp) s hs

/-- Witness for the amended C6 at a concrete document. -/

theorem C6_adaptive_merge_bound_witness :
    strLit "hi" ∈ MarkdownSegmenter.split (strLit "hi") ∧
      (strLit "hi").length ≤ 1002 + maxLen (MarkdownSegmenter.paragraphsOf (strLit "hi")) :=
  ⟨by decide, C6_adaptive_merge_bound (strLit "hi") (strLit "hi") (by decide)⟩

theorem trimStr_of_not_WS {l : Str} (h : ∀ c ∈ l, isWS c = false) : trimStr l = l := by
  unfold trimStr
  have h1 : List.dropWhile isWS l = l := by
    cases l with
    | nil => rfl
    | cons c rest => simp [List.dropWhile, h c (List.mem_cons_self _ _)]
  rw [h1]
  have h2 : List.dropWhile isWS l.reverse = l.reverse := by
    cases hrev : l.reverse with
    | nil => rfl
    | cons c rest =>
      have hc : c ∈ l := by
        rw [← List.mem_reverse, hrev]
        exact List.mem_cons_self _ _
      simp [List.dropWhile, h c hc]
  rw [h2, List.reverse_reverse]

theorem startsWithFence_cons_ne {c : Char} {xs : Str} (h : c ≠ '`') :
    startsWithFence (c :: xs) = false := by
  unfold startsWithFence
  split
  · rename_i heq
    rw [List.cons.injEq] at heq
    exact absurd heq.1 h
  · rfl

set_option maxRecDepth 8000 in

/-- C6 counterexample: the original claim ("every segment is at most 1400
characters unless a single paragraph already exceeded 1400") is false: a
499-character paragraph followed by a 1000-character paragraph merges into a
single 1501-character segment although neither paragraph exceeds 1400. -/

theorem C6_counterexample :
    ∃ s ∈ MarkdownSegmenter.split
        (List.replicate 499 'a' ++ '\n' :: '\n' :: List.replicate 1000 'b'),
      1400 < s.length ∧
        ∀ p ∈ MarkdownSegmenter.paragraphsOf
            (List.replicate 499 'a' ++ '\n' :: '\n' :: List.replicate 1000 'b'),
          p.length ≤ 1400 := by
  have hnlA : '\n' ∉ List.replicate 499 'a' := by
    intro h
    rw [List.mem_replicate] at h
    exact absurd h.2 (by decide)
  have hnlB : '\n' ∉ List.replicate 1000 'b' := by
    intro h
    rw [List.mem_replicate] at h
    exact absurd h.2 (by decide)
  have hneA : List.replicate 499 'a' ≠ ([] : Str) := by
    intro h
    have h0 := congrArg List.length h
    rw [List.length_replicate, List.length_nil] at h0
    exact absurd h0 (by decide)
  have hneB : List.replicate 1000 'b' ≠ ([] : Str) := by
    intro h
    have h0 := congrArg List.length h
    rw [List.length_replicate, List.length_nil] at h0
    exact absurd h0 (by decide)
  have hsplit : splitLines (List.replicate 499 'a' ++ '\n' :: '\n' :: List.replicate 1000 'b') =
      [List.replicate 499 'a', [], List.replicate 1000 'b'] := by
    have hform : List.replicate 499 'a' ++ '\n' :: '\n' :: List.replicate 1000 'b' =
        List.replicate 499 'a' ++ '\n' :: ('\n' :: List.replicate 1000 'b') := rfl
    rw [hform, splitLines_append_newline, splitLines_no_newline hnlA]
    have hstep : splitLines ('\n' :: List.replicate 1000 'b') =
        [] :: splitLines (List.replicate 1000 'b') := rfl
    rw [hstep, splitLines_no_newline hnlB]
    rfl
  have hcrA : removeSuffixCR (List.replicate 499 'a') = List.replicate 499 'a' :=
    removeSuffixCR_of_not_mem (by
      intro h
      rw [List.mem_replicate] at h
      exact absurd h.2 (by decide))
  have hcrB : removeSuffixCR (List.replicate 1000 'b') = List.replicate 1000 'b' :=
    removeSuffixCR_of_not_mem (by
      intro h
      rw [List.mem_replicate] at h
      exact absurd h.2 (by decide))
  have htrA : trimStr (List.replicate 499 'a') = List.replicate 499 'a' := by
    refine trimStr_of_not_WS ?_
    intro c hc
    rw [List.mem_replicate] at hc
    rw [hc.2]
    rfl
  have htrB : trimStr (List.replicate 1000 'b') = List.replicate 1000 'b' := by
    refine trimStr_of_not_WS ?_
    intro c hc
    rw [List.mem_replicate] at hc
    rw [hc.2]
    rfl
  have hfA : startsWithFence (List.replicate 499 'a') = false := by
    rw [show (499 : Nat) = 498 + 1 from rfl, List.replicate_succ]
    exact startsWithFence_cons_ne (by decide)
  have hfB : startsWithFence (List.replicate 1000 'b') = false := by
    rw [show (1000 : Nat) = 999 + 1 from rfl, List.replicate_succ]
    exact startsWithFence_cons_ne (by decide)
  have hscan : MarkdownSegmenter.scanLines
      [List.replicate 499 'a', [], List.replicate 1000 'b'] [] false =
      [[List.replicate 499 'a'], [List.replicate 1000 'b']] := by
    rw [scanLines_other_step _ _ false (by rw [hcrA, htrA]; exact hfA)
      (Or.inr (by rw [hcrA, htrA]; exact hneA))]
    rw [hcrA, List.nil_append]
    rw [scanLines_blank_step _ _ (by rfl) (by rfl)]
    rw [scanLines_other_step _ _ false (by rw [hcrB, htrB]; exact hfB)
      (Or.inr (by rw [hcrB, htrB]; exact hneB))]
    rw [hcrB, List.nil_append]
    have hflushA : MarkdownSegmenter.flushParagraph [List.replicate 499 'a'] =
        [[List.replicate 499 'a']] := by
      refine flushParagraph_of_nonblank (List.cons_ne_nil _ _) ?_
      show trimStr (joinLines [List.replicate 499 'a']) ≠ []
      have hj : joinLines [List.replicate 499 'a'] = List.replicate 499 'a' := rfl
      rw [hj, htrA]
      exact hneA
    have hflushB : MarkdownSegmenter.scanLines [] [List.replicate 1000 'b'] false =
        [[List.replicate 1000 'b']] := by
      simp only [MarkdownSegmenter.scanLines]
      refine flushParagraph_of_nonblank (List.cons_ne_nil _ _) ?_
      show trimStr (joinLines [List.replicate 1000 'b']) ≠ []
      have hj : joinLines [List.replicate 1000 'b'] = List.replicate 1000 'b' := rfl
      rw [hj, htrB]
      exact hneB
    rw [hflushA, hflushB]
    rfl
  have hparas : MarkdownSegmenter.paragraphsOf
      (List.replicate 499 'a' ++ '\n' :: '\n' :: List.replicate 1000 'b') =
      [List.replicate 499 'a', List.replicate 1000 'b'] := by
    unfold MarkdownSegmenter.paragraphsOf
    rw [hsplit, hscan]
    rfl
  have hlenA : (List.replicate 499 'a').length = 499 := List.length_replicate _ _
  have hlenB : (List.replicate 1000 'b').length = 1000 := List.length_replicate _ _
  have hmerge : MarkdownSegmenter.mergeGo
      [List.replicate 499 'a', List.replicate 1000 'b'] [] [] =
      [MarkdownSegmenter.appendPara (List.replicate 499 'a') (List.replicate 1000 'b')] := by
    have hc1 : ¬(List.replicate 499 'a' = [] ∧
        MarkdownSegmenter.minChars ≤ (List.replicate 1000 'b').length) :=
      fun hcontr => hneA hcontr.1
    have hc3 : (List.replicate 499 'a').length < MarkdownSegmenter.minChars := by
      rw [hlenA]
      simp only [MarkdownSegmenter.minChars]
      omega
    have hc4 : MarkdownSegmenter.minChars ≤
        (MarkdownSegmenter.appendPara (List.replicate 499 'a') (List.replicate 1000 'b')).length := by
      simp only [MarkdownSegmenter.appendPara, List.length_append, List.length_cons,
        hlenA, hlenB, MarkdownSegmenter.minChars]
      omega
    have hd1 : ¬(True ∧ MarkdownSegmenter.minChars ≤ (List.replicate 499 'a').length) := by
      intro h
      rw [hlenA] at h
      simp only [MarkdownSegmenter.minChars] at h
      omega
    simp only [MarkdownSegmenter.mergeGo]
    rw [if_neg hd1]
    rw [if_pos True.intro]
    rw [if_neg hc1]
    rw [if_neg hneA]
    rw [if_pos hc3]
    rw [if_pos hc4]
    rw [if_pos True.intro]
    rfl
  have hsplitmd : MarkdownSegmenter.split
      (List.replicate 499 'a' ++ '\n' :: '\n' :: List.replicate 1000 'b') =
      [MarkdownSegmenter.appendPara (List.replicate 499 'a') (List.replicate 1000 'b')] := by
    simp only [MarkdownSegmenter.split]
    rw [hparas, if_neg (List.cons_ne_nil _ _), hmerge]
  refine ⟨MarkdownSegmenter.appendPara (List.replicate 499 'a') (List.replicate 1000 'b'),
    by rw [hsplitmd]; exact List.mem_singleton.mpr rfl, ?_, ?_⟩
  · simp only [MarkdownSegmenter.appendPara, List.length_append, List.length_cons,
      hlenA, hlenB]
    omega
  · intro p hp
    rw [hparas] at hp
    rcases List.mem_cons.mp hp with h | h
    · subst h
      omega
    · rw [List.mem_singleton] at h
      subst h
      omega

/-! ## C4: Translation Client failure classification -/

/-- C4 (amended): the classification table of the Kotlin client. Transport
timeouts map to TIMEOUT (retryable), transport I/O failures to NETWORK
(retryable), other transport exceptions to UNKNOWN (terminal); HTTP 401/403
to AUTHENTICATION (terminal), 408/504 to TIMEOUT (retryable), 429 to
RATE_LIMIT (retryable), 500-599 to SERVER (retryable), any other
non-successful status to UNKNOWN (terminal); a successful response whose
parsed content is blank to INVALID_RESPONSE (terminal).  However, an
unparseable or null-parsing body of a successful response escapes as an
uncoded exception carrying no error code (the retry layer later wraps it as
UNKNOWN), rather than INVALID_RESPONSE as the original claim stated. -/

theorem C4_error_classification :
    (failureCode (translateClassify .socketTimeout) = some (.TIMEOUT, true)) ∧
    (failureCode (translateClassify .ioFailure) = some (.NETWORK, true)) ∧
    (failureCode (translateClassify .otherFailure) = some (.UNKNOWN, false)) ∧
    (∀ body, failureCode (translateClassify (.httpResponse 401 body)) =
      some (.AUTHENTICATION, false)) ∧
    (∀ body, failureCode (translateClassify (.httpResponse 403 body)) =
      some (.AUTHENTICATION, false)) ∧
    (∀ body, failureCode (translateClassify (.httpResponse 408 body)) =
      some (.TIMEOUT, true)) ∧
    (∀ body, failureCode (translateClassify (.httpResponse 504 body)) =
      some (.TIMEOUT, true)) ∧
    (∀ body, failureCode (translateClassify (.httpResponse 429 body)) =
      some (.RATE_LIMIT, true)) ∧
    (∀ status body, 500 ≤ status → status ≤ 599 → status ≠ 504 →
      failureCode (translateClassify (.httpResponse status body)) = some (.SERVER, true)) ∧
    (∀ status body, ¬(200 ≤ status ∧ status < 300) →
      status ≠ 401 → status ≠ 403 → status ≠ 408 → status ≠ 504 → status ≠ 429 →
      ¬(500 ≤ status ∧ status ≤ 599) →
      failureCode (translateClassify (.httpResponse status body)) = some (.UNKNOWN, false)) ∧
    (∀ status raw, 200 ≤ status → status < 300 → trimStr raw = [] →
      failureCode (translateClassify (.httpResponse status (.content raw))) =
        some (.INVALID_RESPONSE, false)) ∧
    (∀ status raw, 200 ≤ status → status < 300 → trimStr raw ≠ [] →
      translateClassify (.httpResponse status (.content raw)) = .ok (trimStr raw)) ∧
    (∀ status, 200 ≤ status → status < 300 →
      translateClassify (.httpResponse status .malformed) = .error .uncoded ∧
      translateClassify (.httpResponse status .nullParse) = .error .uncoded) := by
  refine ⟨rfl, rfl, rfl, ?_, ?_, ?_, ?_, ?_, ?_, ?_, ?_, ?_, ?_⟩
  · intro body
    simp only [translateClassify]
    rw [if_neg (show ¬(200 ≤ 401 ∧ 401 < 300) by omega)]
    rfl
  · intro body
    simp only [translateClassify]
    rw [if_neg (show ¬(200 ≤ 403 ∧ 403 < 300) by omega)]
    rfl
  · intro body
    simp only [translateClassify]
    rw [if_neg (show ¬(200 ≤ 408 ∧ 408 < 300) by omega)]
    rfl
  · intro body
    simp only [translateClassify]
    rw [if_neg (show ¬(200 ≤ 504 ∧ 504 < 300) by omega)]
    rfl
  · intro body
    simp only [translateClassify]
    rw [if_neg (show ¬(200 ≤ 429 ∧ 429 < 300) by omega)]
    rfl
  · intro status body h1 h2 h3
    simp only [translateClassify]
    rw [if_neg (show ¬(200 ≤ status ∧ status < 300) by omega)]
    simp only [failureCode, mapStatusToError]
    rw [if_neg (show ¬(status = 401 ∨ status = 403) by omega),
      if_neg (show ¬(status = 408 ∨ status = 504) by omega),
      if_neg (show ¬(status = 429) by omega),
      if_pos (show 500 ≤ status ∧ status ≤ 599 from ⟨h1, h2⟩)]
  · intro status body h1 h2 h3 h4 h5 h6 h7
    simp only [translateClassify]
    rw [if_neg h1]
    simp only [failureCode, mapStatusToError]
    rw [if_neg (show ¬(status = 401 ∨ status = 403) by omega),
      if_neg (show ¬(status = 408 ∨ status = 504) by omega),
      if_neg (show ¬(status = 429) by omega),
      if_neg h7]
  · intro status raw h1 h2 h3
    simp only [translateClassify]
    rw [if_pos ⟨h1, h2⟩, if_pos h3]
    rfl
  · intro status raw h1 h2 h3
    simp only [translateClassify]
    rw [if_pos ⟨h1, h2⟩, if_neg h3]
  · intro status h1 h2
    constructor
    · simp only [translateClassify]
      rw [if_pos ⟨h1, h2⟩]
    · simp only [translateClassify]
      rw [if_pos ⟨h1, h2⟩]

/-- Witness for the C4 table at concrete statuses and bodies. -/

theorem C4_error_classification_witness :
    ((500 : Nat) ≤ 503 ∧ (503 : Nat) ≤ 599) ∧
    failureCode (translateClassify (.httpResponse 503 (.content (strLit "ok")))) =
      some (.SERVER, true) ∧
    failureCode (translateClassify (.httpResponse 418 .malformed)) = some (.UNKNOWN, false) ∧
    failureCode (translateClassify (.httpResponse 200 (.content (strLit "  ")))) =
      some (.INVALID_RESPONSE, false) ∧
    translateClassify (.httpResponse 200 (.content (strLit " hi "))) = .ok (strLit "hi") ∧
    translateClassify (.httpResponse 200 .malformed) = .error .uncoded := by
  refine ⟨by omega, ?_, ?_, ?_, ?_, ?_⟩
  · exact (C4_error_classification).2.2.2.2.2.2.2.2.1 503 (.content (strLit "ok"))
      (by omega) (by omega) (by omega)
  · exact (C4_error_classification).2.2.2.2.2.2.2.2.2.1 418 .malformed (by omega) (by omega)
      (by omega) (by omega) (by omega) (by omega) (by omega)
  · exact (C4_error_classification).2.2.2.2.2.2.2.2.2.2.1 200 (strLit "  ") (by omega) (by omega)
      (by decide)
  · have h := (C4_error_classification).2.2.2.2.2.2.2.2.2.2.2.1 200 (strLit " hi ")
      (by omega) (by omega) (by decide)
    rw [h]
    rfl
  · exact ((C4_error_classification).2.2.2.2.2.2.2.2.2.2.2.2 200 (by omega) (by omega)).1

/-- C4 counterexample: an unparseable (or empty, null-parsing) body of a
successful response does not produce an INVALID_RESPONSE-coded failure; it
escapes `translate` as an exception carrying no error code at all. -/

theorem C4_counterexample :
    translateClassify (.httpResponse 200 .malformed) = .error .uncoded ∧
    translateClassify (.httpResponse 200 .nullParse) = .error .uncoded ∧
    failureCode (translateClassify (.httpResponse 200 .malformed)) = none ∧
    failureCode (translateClassify (.httpResponse 200 .nullParse)) = none := by
  refine ⟨rfl, rfl, rfl, rfl⟩

/-! ## C2: retry exhaustion ends in a placeholder recovery -/

theorem retryLoop_fail_spec (client : Nat → Except ClientFailure RawTranslationResult)
    (maxA : Nat)
    (hfail : ∀ k, ∃ e, client k = .error (.coded e) ∧ e.retryable = true) :
    ∀ (r attempts : Nat) (lastErr : Option ProviderError), attempts + r = maxA →
      (retryLoop client maxA r attempts lastErr).success = none ∧
      (retryLoop client maxA r attempts lastErr).attempts = maxA ∧
      (1 ≤ r → ∃ e, (retryLoop client maxA r attempts lastErr).lastError = some e) ∧
      (r = 0 → (retryLoop client maxA r attempts lastErr).lastError = lastErr) := by
  intro r
  induction r with
  | zero =>
    intro attempts lastErr h
    exact ⟨rfl, (show attempts = maxA by omega), fun h0 => absurd h0 (by omega), fun _ => rfl⟩
  | succ r ih =>
    intro attempts lastErr h
    obtain ⟨e, hce, hre⟩ := hfail (attempts + 1)
    simp only [retryLoop, hce]
    by_cases hlt : attempts + 1 < maxA
    · rw [if_pos ⟨hre, hlt⟩]
      have hrec := ih (attempts + 1) (some e) (by omega)
      refine ⟨hrec.1, hrec.2.1, fun _ => ?_, by omega⟩
      rcases Nat.eq_zero_or_pos r with hr | hr
      · exact ⟨e, hrec.2.2.2 hr⟩
      · exact hrec.2.2.1 hr
    · rw [if_neg (fun hcontr => hlt hcontr.2)]
      exact ⟨rfl, (show attempts + 1 = maxA by omega), fun _ => ⟨e, rfl⟩,
        fun h0 => absurd h0 (by omega)⟩

theorem retry_recovery_index (client : Nat → Except ClientFailure RawTranslationResult)
    (maxA : Nat) (model : String) (i : Nat) (seg : Str) (r : SegmentRecovery)
    (h : (translateSegmentWithRetry client maxA model i seg).recovery = some r) :
    r.segmentIndex = i := by
  simp only [translateSegmentWithRetry] at h
  split at h
  · simp at h
  · rw [Option.some_inj] at h
    rw [← h]

theorem translateSegmentWithRetry_fail
    (client : Nat → Except ClientFailure RawTranslationResult)
    (maxA : Nat) (model : String) (i : Nat) (seg : Str)
    (hmax : 1 ≤ maxA)
    (hfail : ∀ k, ∃ e, client k = .error (.coded e) ∧ e.retryable = true) :
    ∃ rcv, (translateSegmentWithRetry client maxA model i seg).recovery = some rcv ∧
      rcv.type = "placeholder" ∧ rcv.attempts = maxA ∧ rcv.segmentIndex = i ∧
      ∃ e, (translateSegmentWithRetry client maxA model i seg).result.markdown =
        buildPlaceholderSegment e seg := by
  have hspec := retryLoop_fail_spec client maxA hfail maxA 0 none (by omega)
  obtain ⟨e, he⟩ := hspec.2.2.1 hmax
  simp only [translateSegmentWithRetry, hspec.1, he]
  exact ⟨_, rfl, rfl, hspec.2.1, rfl, e, rfl⟩

theorem suffix_buildPlaceholderSegment (e : ProviderError) (seg : Str)
    (h : trimStr seg ≠ []) : List.IsSuffix seg (buildPlaceholderSegment e seg) := by
  unfold buildPlaceholderSegment
  rw [if_pos h]
  refine ⟨strLit "> Translation failed for this section (" ++ strLit (codeLabel e.code) ++
    strLit ").\n>\n> Showing original text." ++ ['\n', '\n'], ?_⟩
  simp

theorem mapWithIndex_get? (f : Nat → α → β) :
    ∀ (l : List α) (start i : Nat),
      (mapWithIndex f start l).get? i = (l.get? i).map (f (start + i)) := by
  intro l
  induction l with
  | nil => intro start i; rfl
  | cons a as ih =>
    intro start i
    cases i with
    | zero => rfl
    | succ i =>
      simp only [mapWithIndex, List.get?_cons_succ]
      rw [ih (start + 1) i]
      have harith : start + 1 + i = start + (i + 1) := by omega
      rw [harith]

theorem countP_recoveries_lt (clients : Nat → Nat → Except ClientFailure RawTranslationResult)
    (maxA : Nat) (model : String) :
    ∀ (segs : List Str) (start j : Nat), j < start →
      List.countP (fun r => r.segmentIndex == j)
        ((mapWithIndex (fun i seg => translateSegmentWithRetry (clients i) maxA model i seg)
          start segs).filterMap (fun o => o.recovery)) = 0 := by
  intro segs
  induction segs with
  | nil => intro start j _; rfl
  | cons seg rest ih =>
    intro start j hj
    simp only [mapWithIndex, List.filterMap_cons]
    cases hrec : (translateSegmentWithRetry (clients start) maxA model start seg).recovery with
    | none => exact ih (start + 1) j (by omega)
    | some r =>
      have hidx := retry_recovery_index _ _ _ _ _ _ hrec
      rw [List.countP_cons]
      have hne : (r.segmentIndex == j) = false := by
        rw [beq_eq_false_iff_ne]
        omega
      rw [hne, ih (start + 1) j (by omega)]
      simp

theorem countP_recoveries_eq_one
    (clients : Nat → Nat → Except ClientFailure RawTranslationResult)
    (maxA : Nat) (model : String) (hmax : 1 ≤ maxA) :
    ∀ (segs : List Str) (start j : Nat), start ≤ j → j < start + segs.length →
      (∀ k, ∃ e, clients j k = .error (.coded e) ∧ e.retryable = true) →
      List.countP (fun r => r.segmentIndex == j)
        ((mapWithIndex (fun i seg => translateSegmentWithRetry (clients i) maxA model i seg)
          start segs).filterMap (fun o => o.recovery)) = 1 := by
  intro segs
  induction segs with
  | nil =>
    intro start j h1 h2 _
    simp at h2
    omega
  | cons seg rest ih =>
    intro start j h1 h2 hfail
    simp only [mapWithIndex, List.filterMap_cons]
    by_cases hsj : start = j
    · subst hsj
      obtain ⟨rcv, hrcv, _, _, hidx, _⟩ :=
        translateSegmentWithRetry_fail (clients start) maxA model start seg hmax hfail
      rw [hrcv, List.countP_cons]
      have heq : (rcv.segmentIndex == start) = true := by
        rw [beq_iff_eq]
        exact hidx
      rw [heq, countP_recoveries_lt clients maxA model rest (start + 1) start (by omega)]
      simp
    · cases hrec : (translateSegmentWithRetry (clients start) maxA model start seg).recovery with
      | none =>
        refine ih (start + 1) j (by omega) (by simp at h2 ⊢; omega) hfail
      | some r =>
        have hidx := retry_recovery_index _ _ _ _ _ _ hrec
        rw [List.countP_cons]
        have hne : (r.segmentIndex == j) = false := by
          rw [beq_eq_false_iff_ne]
          omega
        rw [hne, ih (start + 1) j (by omega) (by simp at h2 ⊢; omega) hfail]
        simp

theorem insertRec_perm (r : SegmentRecovery) (l : List SegmentRecovery) :
    (insertRec r l).Perm (r :: l) := by
  induction l with
  | nil => exact List.Perm.refl _
  | cons x xs ih =>
    simp only [insertRec]
    split
    · exact List.Perm.refl _
    · exact (List.Perm.cons x ih).trans (List.Perm.swap r x xs)

theorem runRecoveries_perm (outcomes : List SegmentOutcome) :
    (runRecoveries outcomes).Perm (outcomes.filterMap (fun o => o.recovery)) := by
  unfold runRecoveries
  generalize outcomes.filterMap (fun o => o.recovery) = l
  induction l with
  | nil => exact List.Perm.refl _
  | cons x xs ih =>
    simp only [List.foldr_cons]
    exact (insertRec_perm x _).trans (List.Perm.cons x ih)

/-- C2: if one segment's Translation Client throws a retryable error on every
attempt, the run still completes: that segment's outcome is a placeholder
built from the original segment text (the original text is a suffix of the
placeholder when the segment is non-blank), and the run's sorted `recoveries`
list contains exactly one entry for that segment, of type "placeholder" with
`attempts = retryMaxAttempts`. -/

theorem C2_placeholder_recovery
    (clients : Nat → Nat → Except ClientFailure RawTranslationResult)
    (maxAttempts : Nat) (model : String) (segments : List Str) (j : Nat)
    (hmax : 1 ≤ maxAttempts) (hj : j < segments.length)
    (hfail : ∀ k, ∃ e, clients j k = .error (.coded e) ∧ e.retryable = true) :
    ∃ o, (segmentOutcomes clients maxAttempts model segments).get? j = some o ∧
      (∃ rcv, o.recovery = some rcv ∧ rcv.type = "placeholder" ∧
        rcv.attempts = maxAttempts ∧ rcv.segmentIndex = j) ∧
      (∀ seg, segments.get? j = some seg → trimStr seg ≠ [] →
        List.IsSuffix seg o.result.markdown) ∧
      List.countP (fun r => r.segmentIndex == j)
        (runRecoveries (segmentOutcomes clients maxAttempts model segments)) = 1 := by
  obtain ⟨seg, hseg⟩ : ∃ seg, segments.get? j = some seg :=
    ⟨segments.get ⟨j, hj⟩, List.get?_eq_get hj⟩
  refine ⟨translateSegmentWithRetry (clients j) maxAttempts model j seg, ?_, ?_, ?_, ?_⟩
  · rw [show segmentOutcomes clients maxAttempts model segments =
      mapWithIndex (fun i s => translateSegmentWithRetry (clients i) maxAttempts model i s)
        0 segments from rfl]
    rw [mapWithIndex_get?, hseg]
    simp
  · obtain ⟨rcv, hrcv, htype, hatt, hidx, _⟩ :=
      translateSegmentWithRetry_fail (clients j) maxAttempts model j seg hmax hfail
    exact ⟨rcv, hrcv, htype, hatt, hidx⟩
  · intro seg2 hseg2 hblank
    rw [hseg] at hseg2
    rw [Option.some_inj] at hseg2
    rw [← hseg2] at hblank ⊢
    obtain ⟨_, _, _, _, _, e, hmd⟩ :=
      translateSegmentWithRetry_fail (clients j) maxAttempts model j seg hmax hfail
    rw [hmd]
    exact suffix_buildPlaceholderSegment e seg hblank
  · rw [List.Perm.countP_eq (fun r => r.segmentIndex == j) (runRecoveries_perm _)]
    exact countP_recoveries_eq_one clients maxAttempts model hmax segments 0 j (by omega)
      (by omega) hfail

/-- Witness for C2: a single-segment run whose client always answers 429. -/

theorem C2_placeholder_recovery_witness :
    ((1 : Nat) ≤ 2 ∧ 0 < [strLit "hello"].length ∧
      (∀ k : Nat, ∃ e, (fun (_ _ : Nat) =>
          (Except.error (ClientFailure.coded ⟨.RATE_LIMIT, true, "rate limited"⟩) :
            Except ClientFailure RawTranslationResult)) 0 k =
          .error (.coded e) ∧ e.retryable = true)) ∧
    (∃ o, (segmentOutcomes (fun _ _ =>
        .error (.coded ⟨.RATE_LIMIT, true, "rate limited"⟩)) 2 "gpt" [strLit "hello"]).get? 0 =
          some o ∧
      (∃ rcv, o.recovery = some rcv ∧ rcv.type = "placeholder" ∧
        rcv.attempts = 2 ∧ rcv.segmentIndex = 0) ∧
      (∀ seg, [strLit "hello"].get? 0 = some seg → trimStr seg ≠ [] →
        List.IsSuffix seg o.result.markdown) ∧
      List.countP (fun r => r.segmentIndex == 0)
        (runRecoveries (segmentOutcomes (fun _ _ =>
          .error (.coded ⟨.RATE_LIMIT, true, "rate limited"⟩)) 2 "gpt" [strLit "hello"])) = 1) :=
  ⟨⟨by decide, by decide, fun _ => ⟨⟨.RATE_LIMIT, true, "rate limited"⟩, rfl, rfl⟩⟩,
    C2_placeholder_recovery (fun _ _ => .error (.coded ⟨.RATE_LIMIT, true, "rate limited"⟩))
      2 "gpt" [strLit "hello"] 0 (by decide) (by decide)
      (fun _ => ⟨⟨.RATE_LIMIT, true, "rate limited"⟩, rfl, rfl⟩)⟩

/-! ## C1: emission order and final composition -/

theorem length_finishTimes : ∀ (lat avail : List Nat),
    (finishTimes avail lat).length = lat.length := by
  intro lat
  induction lat with
  | nil => intro avail; rfl
  | cons l ls ih =>
    intro avail
    simp only [finishTimes, List.length_cons, ih]

theorem mem_mapWithIndex_pair_bounds {L : List Nat} :
    ∀ {start : Nat} {p : Nat × Nat},
      p ∈ mapWithIndex (fun i t => (t, i)) start L → start ≤ p.2 ∧ p.1 ∈ L := by
  induction L with
  | nil => intro start p h; simp [mapWithIndex] at h
  | cons t ts ih =>
    intro start p h
    simp only [mapWithIndex] at h
    rcases List.mem_cons.mp h with h | h
    · subst h
      exact ⟨le_refl _, List.mem_cons_self _ _⟩
    · obtain ⟨h1, h2⟩ := ih h
      exact ⟨by omega, List.mem_cons_of_mem _ h2⟩

theorem mem_map_mapWithIndex_pair {L : List Nat} :
    ∀ {start i : Nat}, start ≤ i → i < start + L.length →
      i ∈ (mapWithIndex (fun i t => (t, i)) start L).map (fun p => p.2) := by
  induction L with
  | nil => intro start i h1 h2; simp at h2; omega
  | cons t ts ih =>
    intro start i h1 h2
    simp only [mapWithIndex, List.map_cons]
    by_cases hsi : i = start
    · subst hsi
      exact List.mem_cons_self _ _
    · refine List.mem_cons_of_mem _ (ih (by omega) (by simp at h2 ⊢; omega))

theorem insertEmit_perm (x : Nat × Nat) (l : List (Nat × Nat)) :
    (insertEmit x l).Perm (x :: l) := by
  induction l with
  | nil => exact List.Perm.refl _
  | cons y ys ih =>
    simp only [insertEmit]
    split
    · exact List.Perm.refl _
    · exact (List.Perm.cons y ih).trans (List.Perm.swap x y ys)

theorem sortEmit_perm (l : List (Nat × Nat)) : (sortEmit l).Perm l := by
  unfold sortEmit
  induction l with
  | nil => exact List.Perm.refl _
  | cons x xs ih =>
    simp only [List.foldr_cons]
    exact (insertEmit_perm x _).trans (List.Perm.cons x ih)

theorem mem_emissionOrder {c : Nat} {lat : List Nat} {i : Nat} (h : i < lat.length) :
    i ∈ emissionOrder c lat := by
  unfold emissionOrder
  have hperm := (sortEmit_perm
    (mapWithIndex (fun i t => (t, i)) 0 (schedule c lat))).map (fun p => p.2)
  rw [hperm.mem_iff]
  refine mem_map_mapWithIndex_pair (by omega) ?_
  rw [show schedule c lat = finishTimes (List.replicate c 0) lat from rfl,
    length_finishTimes]
  omega

theorem runResults_get? (outcomes : List SegmentOutcome) :
    ∀ (order : List Nat) (acc : List (Option RawTranslationResult)),
      acc.length = outcomes.length → ∀ i,
      (order.foldl (fun acc i =>
        match outcomes.get? i with
        | some o => acc.set i (some o.result)
        | none => acc) acc).get? i =
        if i ∈ order ∧ i < outcomes.length then
          (outcomes.get? i).map (fun o => some o.result)
        else acc.get? i := by
  intro order
  induction order with
  | nil =>
    intro acc hlen i
    rw [if_neg (fun hcontr => by simp at hcontr)]
    rfl
  | cons a rest ih =>
    intro acc hlen i
    simp only [List.foldl_cons]
    have hstep : (match outcomes.get? a with
        | some o => acc.set a (some o.result)
        | none => acc).length = outcomes.length := by
      cases outcomes.get? a with
      | none => exact hlen
      | some o => simp [hlen]
    rw [ih _ hstep i]
    by_cases hrest : i ∈ rest ∧ i < outcomes.length
    · rw [if_pos hrest, if_pos ⟨List.mem_cons_of_mem _ hrest.1, hrest.2⟩]
    · rw [if_neg hrest]
      by_cases hai : a = i ∧ i < outcomes.length
      · obtain ⟨rfl, hin⟩ := hai
        cases hget : outcomes.get? a with
        | none =>
          rw [List.get?_eq_getElem?, List.getElem?_eq_none_iff] at hget
          omega
        | some o =>
          rw [if_pos ⟨List.mem_cons_self _ _, hin⟩]
          simp only [Option.map_some']
          show (acc.set a (some o.result)).get? a = some (some o.result)
          rw [List.get?_eq_getElem?, List.getElem?_set_eq_of_lt _ (by omega)]
      · by_cases haeq : a = i
        · subst haeq
          have hnin : ¬ a < outcomes.length := fun hcontr => hai ⟨rfl, hcontr⟩
          cases hget : outcomes.get? a with
          | none =>
            rw [if_neg (fun hcontr => hai ⟨rfl, hcontr.2⟩)]
          | some o =>
            rw [List.get?_eq_getElem?] at hget
            obtain ⟨hlt, _⟩ := List.getElem?_eq_some_iff.mp hget
            exact absurd hlt hnin
        · rw [if_neg (fun hcontr => by
            rcases List.mem_cons.mp hcontr.1 with h | h
            · exact haeq h.symm
            · exact hrest ⟨h, hcontr.2⟩)]
          cases hget : outcomes.get? a with
          | none => rfl
          | some o =>
            show (acc.set a (some o.result)).get? i = acc.get? i
            rw [List.get?_eq_getElem?, List.get?_eq_getElem?,
              List.getElem?_set_ne (fun hcontr => haeq hcontr)]

theorem runResults_eq (order : List Nat) (outcomes : List SegmentOutcome)
    (hcomp : ∀ i, i < outcomes.length → i ∈ order) :
    runResults order outcomes = outcomes.map (fun o => some o.result) := by
  apply List.ext_get?
  intro i
  unfold runResults
  rw [runResults_get? outcomes order _ (by simp) i]
  by_cases hin : i < outcomes.length
  · rw [if_pos ⟨hcomp i hin, hin⟩, List.get?_eq_getElem?, List.get?_eq_getElem?]
    simp [hin]
  · rw [if_neg (fun hcontr => hin hcontr.2)]
    rw [List.get?_eq_getElem?, List.get?_eq_getElem?]
    rw [List.getElem?_eq_none_iff.mpr (by simp; omega),
      List.getElem?_eq_none_iff.mpr (by simp; omega)]

theorem filterMap_somes (outcomes : List SegmentOutcome) :
    (outcomes.map (fun o => some o.result)).filterMap (fun x => x.map (fun r => r.markdown)) =
      outcomes.map (fun o => o.result.markdown) := by
  induction outcomes with
  | nil => rfl
  | cons o os ih => simp [ih]

theorem finishTimes_single_cons (t l : Nat) (ls : List Nat) :
    finishTimes [t] (l :: ls) = (t + l) :: finishTimes [t + l] ls := by
  simp [finishTimes, listMin, replaceFirst]

theorem finishTimes_single_ge : ∀ (ls : List Nat) (t : Nat), ∀ f ∈ finishTimes [t] ls, t ≤ f := by
  intro ls
  induction ls with
  | nil => intro t f h; simp [finishTimes] at h
  | cons l ls ih =>
    intro t f h
    rw [finishTimes_single_cons] at h
    rcases List.mem_cons.mp h with h | h
    · omega
    · have := ih (t + l) f h
      omega

theorem pairs_pairwise_single : ∀ (ls : List Nat) (t start : Nat),
    List.Pairwise (fun x y : Nat × Nat => x.1 < y.1 ∨ (x.1 = y.1 ∧ x.2 ≤ y.2))
      (mapWithIndex (fun i ti => (ti, i)) start (finishTimes [t] ls)) := by
  intro ls
  induction ls with
  | nil => intro t start; exact List.Pairwise.nil
  | cons l ls ih =>
    intro t start
    rw [finishTimes_single_cons]
    simp only [mapWithIndex]
    refine List.Pairwise.cons ?_ (ih (t + l) (start + 1))
    intro y hy
    obtain ⟨h1, h2⟩ := mem_mapWithIndex_pair_bounds hy
    have hge : t + l ≤ y.1 := finishTimes_single_ge ls (t + l) y.1 h2
    rcases Nat.lt_or_ge (t + l) y.1 with h | h
    · exact Or.inl h
    · exact Or.inr ⟨by omega, by omega⟩

theorem sortEmit_sorted : ∀ {l : List (Nat × Nat)},
    List.Pairwise (fun x y : Nat × Nat => x.1 < y.1 ∨ (x.1 = y.1 ∧ x.2 ≤ y.2)) l →
    sortEmit l = l := by
  intro l
  induction l with
  | nil => intro _; rfl
  | cons x xs ih =>
    intro h
    rw [List.pairwise_cons] at h
    show insertEmit x (sortEmit xs) = x :: xs
    rw [ih h.2]
    cases xs with
    | nil => rfl
    | cons y ys =>
      simp only [insertEmit]
      rw [if_pos (h.1 y (List.mem_cons_self _ _))]

theorem proj_mapWithIndex_pair : ∀ (L : List Nat) (start : Nat),
    (mapWithIndex (fun i t => (t, i)) start L).map (fun p => p.2) =
      List.range' start L.length := by
  intro L
  induction L with
  | nil => intro start; rfl
  | cons t ts ih =>
    intro start
    simp only [mapWithIndex, List.map_cons, List.length_cons, List.range'_succ]
    rw [ih (start + 1)]

theorem emissionOrder_one (lat : List Nat) : emissionOrder 1 lat = List.range lat.length := by
  unfold emissionOrder
  rw [show schedule 1 lat = finishTimes [(0 : Nat)] lat from rfl,
    sortEmit_sorted (pairs_pairwise_single lat 0 0), proj_mapWithIndex_pair,
    length_finishTimes, List.range_eq_range']

/-- C1 (amended): emissions happen in completion order, so strict
index-ascending emission is guaranteed only for concurrency limit 1 (where it
equals `0, 1, ..., N-1`); the final result's markdown nevertheless
concatenates the per-segment results in original index order for every
concurrency limit and every latency assignment. -/

theorem C1_ordering (lat : List Nat) (outcomes : List SegmentOutcome) (requested : Nat)
    (hlen : lat.length = outcomes.length) :
    finalMarkdown (runEmissionOrder requested lat) outcomes =
      joinNN (outcomes.map (fun o => o.result.markdown)) ∧
    runEmissionOrder 1 lat = List.range lat.length ∧
    List.Pairwise (· < ·) (runEmissionOrder 1 lat) := by
  have hone : runEmissionOrder 1 lat = List.range lat.length := by
    unfold runEmissionOrder normalizeConcurrency
    rw [if_neg (by omega)]
    have hmin : min 1 (max lat.length 1) = 1 :=
      Nat.min_eq_left (le_max_right _ _)
    rw [hmin, emissionOrder_one]
  refine ⟨?_, hone, ?_⟩
  · unfold finalMarkdown runEmissionOrder
    rw [runResults_eq _ outcomes (fun i hi => mem_emissionOrder (by omega)),
      filterMap_somes]
  · rw [hone]
    exact List.pairwise_lt_range _

/-- Witness for C1 at a concrete two-segment run. -/

theorem C1_ordering_witness :
    ([100, 25].length = ([⟨⟨strLit "A", "p", 5⟩, none⟩,
        ⟨⟨strLit "B", "p", 7⟩, none⟩] : List SegmentOutcome).length) ∧
    (finalMarkdown (runEmissionOrder 2 [100, 25])
        [⟨⟨strLit "A", "p", 5⟩, none⟩, ⟨⟨strLit "B", "p", 7⟩, none⟩] =
      joinNN (([⟨⟨strLit "A", "p", 5⟩, none⟩,
        ⟨⟨strLit "B", "p", 7⟩, none⟩] : List SegmentOutcome).map
          (fun o => o.result.markdown)) ∧
    runEmissionOrder 1 [100, 25] = List.range [100, 25].length ∧
    List.Pairwise (· < ·) (runEmissionOrder 1 [100, 25])) :=
  ⟨by decide, C1_ordering [100, 25]
    [⟨⟨strLit "A", "p", 5⟩, none⟩, ⟨⟨strLit "B", "p", 7⟩, none⟩] 2 (by decide)⟩

/-- C1 counterexample: with concurrency limit 2 over two segments whose first
is slower, `onSegment` fires for index 1 before index 0 (there is no pending
map or flush cursor in the Kotlin `translateDocument`), so the emission
sequence is not strictly increasing in segmentIndex; the final markdown still
concatenates in index order. -/

theorem C1_counterexample :
    runEmissionOrder 2 [100, 0] = [1, 0] ∧
    ¬ List.Pairwise (· < ·) (runEmissionOrder 2 [100, 0]) ∧
    finalMarkdown (runEmissionOrder 2 [100, 0])
      [⟨⟨strLit "A", "p", 5⟩, none⟩, ⟨⟨strLit "B", "p", 7⟩, none⟩] = strLit "A\n\nB" := by
  refine ⟨by decide, by decide, by decide⟩

/-! ## Association map lemmas -/

theorem mapGet_mapSet [DecidableEq κ] (m : List (κ × α)) (k k' : κ) (v : α) :
    mapGet (mapSet m k v) k' = if k = k' then some v else mapGet m k' := by
  induction m with
  | nil =>
    simp [mapSet, mapGet]
  | cons p rest ih =>
    obtain ⟨k2, v2⟩ := p
    simp only [mapSet]
    by_cases h2 : k2 = k
    · subst h2
      simp only [if_pos rfl, mapGet]
      by_cases h : k2 = k'
      · rw [if_pos h, if_pos h]
      · rw [if_neg h, if_neg h, if_neg h]
    · rw [if_neg h2]
      simp only [mapGet]
      by_cases h : k2 = k'
      · subst h
        rw [if_pos rfl, if_neg (fun hc => h2 hc.symm), if_pos rfl]
      · rw [if_neg h, if_neg h, ih]

theorem mapGet_eq_none [DecidableEq κ] {m : List (κ × α)} {k : κ}
    (h : ∀ p ∈ m, p.1 ≠ k) : mapGet m k = none := by
  induction m with
  | nil => rfl
  | cons p rest ih =>
    obtain ⟨k2, v2⟩ := p
    simp only [mapGet]
    rw [if_neg (h (k2, v2) (List.mem_cons_self _ _))]
    exact ih (fun q hq => h q (List.mem_cons_of_mem _ hq))

theorem mapGet_mapDelete [DecidableEq κ] {m : List (κ × α)} (h : keysNodup m) (k k' : κ) :
    mapGet (mapDelete m k) k' = if k = k' then none else mapGet m k' := by
  induction m with
  | nil =>
    simp only [mapDelete, mapGet]
    by_cases heq : k = k'
    · rw [if_pos heq]
    · rw [if_neg heq]
  | cons p rest ih =>
    obtain ⟨k2, v2⟩ := p
    rw [keysNodup, List.pairwise_cons] at h
    simp only [mapDelete]
    by_cases h2 : k2 = k
    · subst h2
      rw [if_pos rfl]
      by_cases heq : k2 = k'
      · subst heq
        rw [if_pos rfl]
        exact mapGet_eq_none (fun p hp => (h.1 p hp).symm)
      · rw [if_neg heq]
        simp only [mapGet]
        rw [if_neg heq]
    · rw [if_neg h2]
      simp only [mapGet]
      by_cases heq : k2 = k'
      · subst heq
        rw [if_pos rfl, if_neg (fun hc => h2 hc.symm), if_pos rfl]
      · rw [if_neg heq, if_neg heq, ih h.2]

theorem mem_mapSet_keys [DecidableEq κ] {m : List (κ × α)} {k : κ} {v : α} {p : κ × α}
    (h : p ∈ mapSet m k v) : p.1 = k ∨ ∃ q ∈ m, p.1 = q.1 := by
  induction m with
  | nil =>
    simp only [mapSet, List.mem_singleton] at h
    subst h
    exact Or.inl rfl
  | cons q rest ih =>
    obtain ⟨k2, v2⟩ := q
    simp only [mapSet] at h
    by_cases h2 : k2 = k
    · rw [if_pos h2] at h
      rcases List.mem_cons.mp h with h | h
      · subst h
        exact Or.inr ⟨(k2, v2), List.mem_cons_self _ _, rfl⟩
      · exact Or.inr ⟨p, List.mem_cons_of_mem _ h, rfl⟩
    · rw [if_neg h2] at h
      rcases List.mem_cons.mp h with h | h
      · subst h
        exact Or.inr ⟨(k2, v2), List.mem_cons_self _ _, rfl⟩
      · rcases ih h with h | ⟨q, hq, hpq⟩
        · exact Or.inl h
        · exact Or.inr ⟨q, List.mem_cons_of_mem _ hq, hpq⟩

theorem keysNodup_mapSet [DecidableEq κ] {m : List (κ × α)} (h : keysNodup m)
    (k : κ) (v : α) : keysNodup (mapSet m k v) := by
  induction m with
  | nil => simp [mapSet, keysNodup]
  | cons p rest ih =>
    obtain ⟨k2, v2⟩ := p
    rw [keysNodup, List.pairwise_cons] at h
    simp only [mapSet]
    by_cases h2 : k2 = k
    · rw [if_pos h2, keysNodup, List.pairwise_cons]
      exact ⟨fun q hq => h.1 q hq, h.2⟩
    · rw [if_neg h2, keysNodup, List.pairwise_cons]
      refine ⟨?_, ih h.2⟩
      intro q hq
      rcases mem_mapSet_keys hq with hq1 | ⟨q2, hq2, hq3⟩
      · rw [hq1]
        exact h2
      · rw [hq3]
        exact h.1 q2 hq2

theorem mapDelete_sublist [DecidableEq κ] (m : List (κ × α)) (k : κ) :
    (mapDelete m k).Sublist m := by
  induction m with
  | nil => exact List.Sublist.refl _
  | cons p rest ih =>
    obtain ⟨k2, v2⟩ := p
    simp only [mapDelete]
    by_cases h2 : k2 = k
    · rw [if_pos h2]
      exact (List.Sublist.refl _).cons _
    · rw [if_neg h2]
      exact ih.cons₂ _

theorem keysNodup_mapDelete [DecidableEq κ] {m : List (κ × α)} (h : keysNodup m)
    (k : κ) : keysNodup (mapDelete m k) :=
  h.sublist (mapDelete_sublist m k)

theorem keysNodup_filter [DecidableEq κ] {m : List (κ × α)} (h : keysNodup m)
    (p : κ × α → Bool) : keysNodup (m.filter p) :=
  h.sublist (List.filter_sublist m)

/-! ## C8: persisted cache keys exclude apiKey and timeoutMs -/

/-- C8: two configurations that differ only in `apiKey` and/or `timeoutMs`
resolve to the identical persisted cache entry path, in both the TS store
(`resolvePaths`) and the Kotlin store (`resolveEntryPath`): neither secret
participates in any persisted cache key. -/

theorem C8_path_excludes_secrets (workspaceKey fileUri projectKey filePath
    promptFingerprint apiKey : String) (timeoutMs : Nat)
    (cfg : ResolvedTranslationConfiguration) (config : ResolvedTranslationConfig) :
    resolvePathsTS workspaceKey fileUri
        { cfg with apiKey := apiKey, timeoutMs := timeoutMs } promptFingerprint
      = resolvePathsTS workspaceKey fileUri cfg promptFingerprint ∧
    resolveEntryPathJB projectKey filePath
        { config with apiKey := apiKey, timeoutMs := timeoutMs } promptFingerprint
      = resolveEntryPathJB projectKey filePath config promptFingerprint :=
  ⟨rfl, rfl⟩

/-! ## Cache behaviour lemmas -/

theorem segmentCache_associate (s : TranslationCache) (fp : SegmentFingerprint)
    (docUri : String) :
    (s.associateSegmentWithDocument fp docUri).segmentCache = s.segmentCache := by
  simp only [TranslationCache.associateSegmentWithDocument]
  by_cases h : docUri ∈ (mapGet s.segmentOwners fp).getD []
  · rw [if_pos h]
  · rw [if_neg h]

theorem owners_associate (s : TranslationCache) (fp : SegmentFingerprint)
    (docUri : String) :
    docUri ∈ (mapGet (s.associateSegmentWithDocument fp docUri).segmentOwners fp).getD [] := by
  simp only [TranslationCache.associateSegmentWithDocument]
  by_cases h : docUri ∈ (mapGet s.segmentOwners fp).getD []
  · rw [if_pos h]
    exact h
  · rw [if_neg h]
    show docUri ∈ (mapGet (mapSet s.segmentOwners fp
      ((mapGet s.segmentOwners fp).getD [] ++ [docUri])) fp).getD []
    rw [mapGet_mapSet, if_pos rfl]
    simp

theorem ttlMs_evictOne (s : TranslationCache) : s.evictOne.ttlMs = s.ttlMs := by
  unfold TranslationCache.evictOne
  cases oldestKeyOf (s.cache.map (fun p => (p.1, p.2.timestamp))) <;> rfl

theorem ttlMs_set (s : TranslationCache) (uri : String) (version : Nat)
    (cfg : ResolvedTranslationConfiguration) (result : TranslationResultTS)
    (now : Nat) : (s.set uri version cfg result now).ttlMs = s.ttlMs := by
  simp only [TranslationCache.set]
  by_cases h : s.maxEntries ≤ s.cache.length
  · rw [if_pos h]
    exact ttlMs_evictOne s
  · rw [if_neg h]

theorem cache_set_self (s : TranslationCache) (uri : String) (version : Nat)
    (cfg : ResolvedTranslationConfiguration) (result : TranslationResultTS)
    (now : Nat) :
    mapGet (s.set uri version cfg result now).cache (buildKey uri version cfg)
      = some ⟨result, now⟩ := by
  simp only [TranslationCache.set]
  rw [mapGet_mapSet, if_pos rfl]

theorem get_eq_of_hit (s : TranslationCache) (uri : String) (version : Nat)
    (cfg : ResolvedTranslationConfiguration) (now : Nat) (e : CacheEntry)
    (h : mapGet s.cache (buildKey uri version cfg) = some e) :
    s.get uri version cfg now =
      if s.ttlMs < now - e.timestamp
      then (none, { s with cache := mapDelete s.cache (buildKey uri version cfg) })
      else (some e.result, s) := by
  simp only [TranslationCache.get, h]

theorem get_eq_of_miss (s : TranslationCache) (uri : String) (version : Nat)
    (cfg : ResolvedTranslationConfiguration) (now : Nat)
    (h : mapGet s.cache (buildKey uri version cfg) = none) :
    s.get uri version cfg now = (none, s) := by
  simp only [TranslationCache.get, h]

/-- C10: a fresh segment-cache hit returns the stored result, rewrites the
entry with its timestamp refreshed to `now` (so segment-tier TTL and
oldest-first eviction measure from the most recent hit) and registers the
reading document as an owner; a fresh document-tier hit returns the stored
result with the cache state unchanged, so its entry keeps the timestamp it
was given by `set`. -/

theorem C10_timestamp_semantics (s : TranslationCache) (uri : String)
    (cfg : ResolvedTranslationConfiguration) (md : Str) (now : Nat)
    (entry : SegmentCacheEntry)
    (hhit : mapGet s.segmentCache (buildSegmentFingerprint cfg md) = some entry)
    (hfresh : ¬ s.ttlMs < now - entry.timestamp)
    (uri2 : String) (version : Nat) (cfg2 : ResolvedTranslationConfiguration)
    (e2 : CacheEntry) (now2 : Nat)
    (hhit2 : mapGet s.cache (buildKey uri2 version cfg2) = some e2)
    (hfresh2 : ¬ s.ttlMs < now2 - e2.timestamp) :
    (s.getSegment uri cfg md now).1
        = some (buildSegmentFingerprint cfg md, entry.result) ∧
    mapGet (s.getSegment uri cfg md now).2.segmentCache
        (buildSegmentFingerprint cfg md) = some ⟨entry.result, now⟩ ∧
    uri ∈ (mapGet (s.getSegment uri cfg md now).2.segmentOwners
        (buildSegmentFingerprint cfg md)).getD [] ∧
    s.get uri2 version cfg2 now2 = (some e2.result, s) := by
  refine ⟨?_, ?_, ?_, ?_⟩
  · simp only [TranslationCache.getSegment, hhit, if_neg hfresh]
  · simp only [TranslationCache.getSegment, hhit, if_neg hfresh]
    rw [segmentCache_associate]
    show mapGet (mapSet s.segmentCache (buildSegmentFingerprint cfg md)
      ⟨entry.result, now⟩) (buildSegmentFingerprint cfg md) = some ⟨entry.result, now⟩
    rw [mapGet_mapSet, if_pos rfl]
  · simp only [TranslationCache.getSegment, hhit, if_neg hfresh]
    exact owners_associate _ _ _
  · rw [get_eq_of_hit s uri2 version cfg2 now2 e2 hhit2, if_neg hfresh2]

/-- C10 instantiated: a one-entry segment cache and a one-entry document
cache, both written at time 0 and read at time 100 (within the 5-minute
TTL). -/

theorem C10_timestamp_semantics_witness :
    mapGet (⟨[(buildKey "doc" 1 ⟨"b", "k", "m", "L", 1⟩,
          ⟨⟨strLit "T", [], "p", 3, []⟩, 0⟩)],
        [(buildSegmentFingerprint ⟨"b", "k", "m", "L", 1⟩ (strLit "hi"),
          ⟨⟨strLit "bonjour", "p", 5⟩, 0⟩)],
        [], [], 16, 300000, 128⟩ : TranslationCache).segmentCache
        (buildSegmentFingerprint ⟨"b", "k", "m", "L", 1⟩ (strLit "hi"))
      = some ⟨⟨strLit "bonjour", "p", 5⟩, 0⟩ ∧
    ¬ (300000 : Nat) < 100 - 0 ∧
    ((⟨[(buildKey "doc" 1 ⟨"b", "k", "m", "L", 1⟩,
          ⟨⟨strLit "T", [], "p", 3, []⟩, 0⟩)],
        [(buildSegmentFingerprint ⟨"b", "k", "m", "L", 1⟩ (strLit "hi"),
          ⟨⟨strLit "bonjour", "p", 5⟩, 0⟩)],
        [], [], 16, 300000, 128⟩ : TranslationCache).getSegment "doc2"
        ⟨"b", "k", "m", "L", 1⟩ (strLit "hi") 100).1
      = some (buildSegmentFingerprint ⟨"b", "k", "m", "L", 1⟩ (strLit "hi"),
          ⟨strLit "bonjour", "p", 5⟩) :=
  ⟨by decide, by decide,
    (C10_timestamp_semantics
      ⟨[(buildKey "doc" 1 ⟨"b", "k", "m", "L", 1⟩,
          ⟨⟨strLit "T", [], "p", 3, []⟩, 0⟩)],
        [(buildSegmentFingerprint ⟨"b", "k", "m", "L", 1⟩ (strLit "hi"),
          ⟨⟨strLit "bonjour", "p", 5⟩, 0⟩)],
        [], [], 16, 300000, 128⟩
      "doc2" ⟨"b", "k", "m", "L", 1⟩ (strLit "hi") 100
      ⟨⟨strLit "bonjour", "p", 5⟩, 0⟩ (by decide) (by decide)
      "doc" 1 ⟨"b", "k", "m", "L", 1⟩ ⟨⟨strLit "T", [], "p", 3, []⟩, 0⟩ 100
      (by decide) (by decide)).1⟩

/-! ## C5: cache key semantics -/

/-- C5: `get` after `set` with the identical (document, version, config)
returns the stored result while the TTL has not elapsed and misses once it
has; a differing (uri, version, configuration-hash) key misses; and in the
durable store, `load` after `save` with identical inputs returns the saved
entry, while changing `targetLanguage`, `model` or the prompt fingerprint
over identical text yields a miss. -/

theorem C5_cache_key_semantics (s : TranslationCache) (uri : String)
    (version : Nat) (cfg : ResolvedTranslationConfiguration)
    (result : TranslationResultTS) (now now2 now3 : Nat)
    (hfresh : ¬ s.ttlMs < now2 - now) (hexp : s.ttlMs < now3 - now)
    (uri2 : String) (version2 : Nat) (cfg2 : ResolvedTranslationConfiguration)
    (hkey : buildKey uri2 version2 cfg2 ≠ buildKey uri version cfg)
    (fs : List (CachePathTS × Option CachedTranslationEntry))
    (workspaceKey fileUri filePath : String) (text : Str)
    (dcfg dcfg2 : ResolvedTranslationConfiguration) (pf pf2 : String)
    (res : TranslationResultTS) (tnow : Nat)
    (hdiff : dcfg2.targetLanguage ≠ dcfg.targetLanguage ∨
      dcfg2.model ≠ dcfg.model ∨ pf2 ≠ pf) :
    ((s.set uri version cfg result now).get uri version cfg now2).1 = some result ∧
    ((s.set uri version cfg result now).get uri version cfg now3).1 = none ∧
    ((TranslationCache.empty.set uri version cfg result now).get
        uri2 version2 cfg2 now2).1 = none ∧
    loadTS (saveTS fs workspaceKey fileUri filePath text dcfg pf res tnow)
        workspaceKey fileUri text dcfg pf
      = some ⟨fileUri, filePath, text, dcfg.targetLanguage, dcfg.model, pf,
          res.markdown, res.html, res.providerId, res.latencyMs,
          res.recoveries, tnow⟩ ∧
    loadTS (saveTS [] workspaceKey fileUri filePath text dcfg pf res tnow)
        workspaceKey fileUri text dcfg2 pf2 = none := by
  refine ⟨?_, ?_, ?_, ?_, ?_⟩
  · rw [get_eq_of_hit _ _ _ _ _ _ (cache_set_self s uri version cfg result now),
      if_neg (show ¬ (s.set uri version cfg result now).ttlMs <
        now2 - (⟨result, now⟩ : CacheEntry).timestamp by
          rw [ttlMs_set]; exact hfresh)]
  · rw [get_eq_of_hit _ _ _ _ _ _ (cache_set_self s uri version cfg result now),
      if_pos (show (s.set uri version cfg result now).ttlMs <
        now3 - (⟨result, now⟩ : CacheEntry).timestamp by
          rw [ttlMs_set]; exact hexp)]
  · rw [get_eq_of_miss]
    show mapGet (mapSet (if (16 : Nat) ≤ (0 : Nat) then
        TranslationCache.empty.evictOne else TranslationCache.empty).cache
      (buildKey uri version cfg) ⟨result, now⟩) (buildKey uri2 version2 cfg2) = none
    rw [if_neg (by decide), mapGet_mapSet, if_neg (fun hc => hkey hc.symm)]
    rfl
  · unfold loadTS saveTS
    rw [mapGet_mapSet, if_pos rfl]
    show (if ((⟨fileUri, filePath, text, dcfg.targetLanguage, dcfg.model, pf,
          res.markdown, res.html, res.providerId, res.latencyMs,
          res.recoveries, tnow⟩ : CachedTranslationEntry).fileUri = fileUri ∧
        text = text ∧ dcfg.targetLanguage = dcfg.targetLanguage ∧
        dcfg.model = dcfg.model ∧ pf = pf)
      then some (⟨fileUri, filePath, text, dcfg.targetLanguage, dcfg.model, pf,
          res.markdown, res.html, res.providerId, res.latencyMs,
          res.recoveries, tnow⟩ : CachedTranslationEntry) else none) = some _
    rw [if_pos ⟨rfl, rfl, rfl, rfl, rfl⟩]
  · unfold loadTS saveTS
    by_cases hp : resolvePathsTS workspaceKey fileUri dcfg2 pf2
        = resolvePathsTS workspaceKey fileUri dcfg pf
    · rw [hp, mapGet_mapSet, if_pos rfl]
      show (if ((⟨fileUri, filePath, text, dcfg.targetLanguage, dcfg.model, pf,
            res.markdown, res.html, res.providerId, res.latencyMs,
            res.recoveries, tnow⟩ : CachedTranslationEntry).fileUri = fileUri ∧
          text = text ∧ dcfg.targetLanguage = dcfg2.targetLanguage ∧
          dcfg.model = dcfg2.model ∧ pf = pf2)
        then some (⟨fileUri, filePath, text, dcfg.targetLanguage, dcfg.model, pf,
            res.markdown, res.html, res.providerId, res.latencyMs,
            res.recoveries, tnow⟩ : CachedTranslationEntry) else none) = none
      rcases hdiff with hd | hd | hd
      · exact if_neg (fun hc => hd hc.2.2.1.symm)
      · exact if_neg (fun hc => hd hc.2.2.2.1.symm)
      · exact if_neg (fun hc => hd hc.2.2.2.2.symm)
    · rw [mapGet_mapSet, if_neg (fun hc => hp hc.symm)]
      rfl

/-- C5 instantiated: document "d" at version 1, French config, stored at time
0, read back at times 0 (hit) and 300001 (expired); version 2 misses; the
durable store round-trips and misses when the target language changes to
English. -/

theorem C5_cache_key_semantics_witness :
    ¬ (TranslationCache.empty.ttlMs < 0 - 0) ∧
    (TranslationCache.empty.ttlMs < 300001 - 0) ∧
    buildKey "d" 2 ⟨"b", "k", "m", "fr", 1⟩ ≠ buildKey "d" 1 ⟨"b", "k", "m", "fr", 1⟩ ∧
    ((⟨"b", "k", "m", "en", 1⟩ : ResolvedTranslationConfiguration).targetLanguage
        ≠ (⟨"b", "k", "m", "fr", 1⟩ : ResolvedTranslationConfiguration).targetLanguage ∨
      (⟨"b", "k", "m", "en", 1⟩ : ResolvedTranslationConfiguration).model
        ≠ (⟨"b", "k", "m", "fr", 1⟩ : ResolvedTranslationConfiguration).model ∨
      ("q" : String) ≠ "q") ∧
    (((TranslationCache.empty.set "d" 1 ⟨"b", "k", "m", "fr", 1⟩
        ⟨strLit "T", [], "p", 3, []⟩ 0).get "d" 1 ⟨"b", "k", "m", "fr", 1⟩ 0).1
      = some ⟨strLit "T", [], "p", 3, []⟩ ∧
    ((TranslationCache.empty.set "d" 1 ⟨"b", "k", "m", "fr", 1⟩
        ⟨strLit "T", [], "p", 3, []⟩ 0).get "d" 1 ⟨"b", "k", "m", "fr", 1⟩ 300001).1
      = none ∧
    ((TranslationCache.empty.set "d" 1 ⟨"b", "k", "m", "fr", 1⟩
        ⟨strLit "T", [], "p", 3, []⟩ 0).get "d" 2 ⟨"b", "k", "m", "fr", 1⟩ 0).1
      = none ∧
    loadTS (saveTS [] "w" "f" "fp" (strLit "x") ⟨"b", "k", "m", "fr", 1⟩ "q"
        ⟨strLit "T", [], "p", 3, []⟩ 7) "w" "f" (strLit "x")
        ⟨"b", "k", "m", "fr", 1⟩ "q"
      = some ⟨"f", "fp", strLit "x", "fr", "m", "q", strLit "T", [], "p", 3, [], 7⟩ ∧
    loadTS (saveTS [] "w" "f" "fp" (strLit "x") ⟨"b", "k", "m", "fr", 1⟩ "q"
        ⟨strLit "T", [], "p", 3, []⟩ 7) "w" "f" (strLit "x")
        ⟨"b", "k", "m", "en", 1⟩ "q" = none) :=
  ⟨by decide, by decide, by decide, Or.inl (by decide),
    C5_cache_key_semantics TranslationCache.empty "d" 1 ⟨"b", "k", "m", "fr", 1⟩
      ⟨strLit "T", [], "p", 3, []⟩ 0 0 300001 (by decide) (by decide)
      "d" 2 ⟨"b", "k", "m", "fr", 1⟩ (by decide)
      [] "w" "f" "fp" (strLit "x") ⟨"b", "k", "m", "fr", 1⟩ ⟨"b", "k", "m", "en", 1⟩
      "q" "q" ⟨strLit "T", [], "p", 3, []⟩ 7 (Or.inl (by decide))⟩

/-! ## C3: segment cache reuse -/

theorem retryLoop_attempts_ge (client : Nat → Except ClientFailure RawTranslationResult)
    (maxAttempts : Nat) :
    ∀ r a e, a ≤ (retryLoop client maxAttempts r a e).attempts := by
  intro r
  induction r with
  | zero => intro a e; exact Nat.le_refl a
  | succ r ih =>
    intro a e
    simp only [retryLoop]
    cases hc : client (a + 1) with
    | ok res => exact Nat.le_succ a
    | error f =>
      cases f with
      | coded pe =>
        show a ≤ (if pe.retryable = true ∧ a + 1 < maxAttempts
          then retryLoop client maxAttempts r (a + 1) (some pe)
          else ⟨a + 1, some pe, none⟩).attempts
        by_cases hr : pe.retryable = true ∧ a + 1 < maxAttempts
        · rw [if_pos hr]
          exact Nat.le_trans (Nat.le_succ a) (ih (a + 1) (some pe))
        · rw [if_neg hr]
          exact Nat.le_succ a
      | uncoded => exact Nat.le_succ a

/-- C3 (amended): the Kotlin `translateDocument` keeps no segment cache at
all: every emitted update carries the literal `wasCached = false`, and
whenever `retryMaxAttempts ≥ 1` the Translation Client is invoked at least
once for every segment, regardless of any pre-populated cache state.  What
does hold of the (TS-side) segment cache is that a fresh hit for the
fingerprint a segment normalizes to returns the stored result immediately. -/

theorem C3_segment_cache_reuse (requested : Nat) (lat : List Nat)
    (outcomes : List SegmentOutcome)
    (client : Nat → Except ClientFailure RawTranslationResult)
    (maxAttempts : Nat) (hmax : 1 ≤ maxAttempts)
    (s : TranslationCache) (uri : String)
    (cfg : ResolvedTranslationConfiguration) (md : Str) (now : Nat)
    (entry : SegmentCacheEntry)
    (hhit : mapGet s.segmentCache (buildSegmentFingerprint cfg md) = some entry)
    (hfresh : ¬ s.ttlMs < now - entry.timestamp) :
    (∀ u ∈ runEmissions requested lat outcomes, u.wasCached = false) ∧
    1 ≤ retryInvocations client maxAttempts ∧
    (s.getSegment uri cfg md now).1
      = some (buildSegmentFingerprint cfg md, entry.result) := by
  refine ⟨?_, ?_, ?_⟩
  · intro u hu
    rw [runEmissions, List.mem_filterMap] at hu
    obtain ⟨i, _, hi⟩ := hu
    rw [Option.map_eq_some'] at hi
    obtain ⟨o, _, ho⟩ := hi
    rw [← ho]
  · match maxAttempts, hmax with
    | m + 1, _ =>
      simp only [retryInvocations, retryLoop]
      cases hc : client (0 + 1) with
      | ok res => exact Nat.le_refl 1
      | error f =>
        cases f with
        | coded pe =>
          show 1 ≤ (if pe.retryable = true ∧ 0 + 1 < m + 1
            then retryLoop client (m + 1) m (0 + 1) (some pe)
            else ⟨0 + 1, some pe, none⟩).attempts
          by_cases hr : pe.retryable = true ∧ 0 + 1 < m + 1
          · rw [if_pos hr]
            exact retryLoop_attempts_ge client (m + 1) m (0 + 1) (some pe)
          · rw [if_neg hr]
        | uncoded => exact Nat.le_refl 1
  · simp only [TranslationCache.getSegment, hhit, if_neg hfresh]

/-- C3 instantiated: one segment, a client that succeeds immediately, and a
segment cache pre-populated at the fingerprint the segment normalizes to. -/

theorem C3_segment_cache_reuse_witness :
    (1 : Nat) ≤ 1 ∧
    mapGet (⟨[], [(buildSegmentFingerprint ⟨"b", "k", "m", "L", 1⟩ (strLit "hi"),
          ⟨⟨strLit "bonjour", "p", 5⟩, 0⟩)],
        [], [], 16, 300000, 128⟩ : TranslationCache).segmentCache
        (buildSegmentFingerprint ⟨"b", "k", "m", "L", 1⟩ (strLit "hi"))
      = some ⟨⟨strLit "bonjour", "p", 5⟩, 0⟩ ∧
    ¬ (300000 : Nat) < 100 - 0 ∧
    ((∀ u ∈ runEmissions 1 [0] (segmentOutcomes
        (fun _ _ => .ok ⟨strLit "T", "p", 1⟩) 1 "m" [strLit "hi"]),
        u.wasCached = false) ∧
      1 ≤ retryInvocations (fun _ => .ok ⟨strLit "T", "p", 1⟩) 1 ∧
      ((⟨[], [(buildSegmentFingerprint ⟨"b", "k", "m", "L", 1⟩ (strLit "hi"),
            ⟨⟨strLit "bonjour", "p", 5⟩, 0⟩)],
          [], [], 16, 300000, 128⟩ : TranslationCache).getSegment "doc"
          ⟨"b", "k", "m", "L", 1⟩ (strLit "hi") 100).1
        = some (buildSegmentFingerprint ⟨"b", "k", "m", "L", 1⟩ (strLit "hi"),
            ⟨strLit "bonjour", "p", 5⟩)) :=
  ⟨by decide, by decide, by decide,
    C3_segment_cache_reuse 1 [0]
      (segmentOutcomes (fun _ _ => .ok ⟨strLit "T", "p", 1⟩) 1 "m" [strLit "hi"])
      (fun _ => .ok ⟨strLit "T", "p", 1⟩) 1 (by decide)
      ⟨[], [(buildSegmentFingerprint ⟨"b", "k", "m", "L", 1⟩ (strLit "hi"),
          ⟨⟨strLit "bonjour", "p", 5⟩, 0⟩)],
        [], [], 16, 300000, 128⟩
      "doc" ⟨"b", "k", "m", "L", 1⟩ (strLit "hi") 100
      ⟨⟨strLit "bonjour", "p", 5⟩, 0⟩ (by decide) (by decide)⟩

/-- C3 counterexample to the original claim: even with the segment cache
pre-populated at exactly the fingerprint segment 0 normalizes to, the run
emits `wasCached = false` for segment 0 and the Translation Client is
invoked once (not zero times) for that index. -/

theorem C3_counterexample :
    (runEmissions 1 [0] (segmentOutcomes
        (fun _ _ => .ok ⟨strLit "T", "p", 1⟩) 3 "m" [strLit "hi"])).map
        (fun u => (u.segmentIndex, u.wasCached)) = [(0, false)] ∧
    retryInvocations (fun _ => .ok ⟨strLit "T", "p", 1⟩) 3 = 1 ∧
    mapGet (⟨[], [(buildSegmentFingerprint ⟨"b", "k", "m", "L", 1⟩ (strLit "hi"),
          ⟨⟨strLit "bonjour", "p", 5⟩, 0⟩)],
        [], [], 16, 300000, 128⟩ : TranslationCache).segmentCache
        (buildSegmentFingerprint ⟨"b", "k", "m", "L", 1⟩ (strLit "hi")) ≠ none := by
  refine ⟨by decide, by decide, by decide⟩

/-! ## C9: owner bookkeeping lemmas -/

theorem filter_idem (p : α → Bool) (l : List α) :
    (l.filter p).filter p = l.filter p := by
  induction l with
  | nil => rfl
  | cons a l ih =>
    by_cases h : p a = true
    · simp [List.filter_cons, h, ih]
    · simp [List.filter_cons, h, ih]

theorem remFilter_idem [DecidableEq β] (b : β) (x : Option (List β)) :
    remFilter b (remFilter b x) = remFilter b x := by
  cases x with
  | none => rfl
  | some l =>
    have h1 : remFilter b (some l) = if l.filter (fun x => decide (x ≠ b)) = []
        then none else some (l.filter (fun x => decide (x ≠ b))) := rfl
    rw [h1]
    by_cases hf : l.filter (fun x => decide (x ≠ b)) = []
    · rw [if_pos hf]
      rfl
    · rw [if_neg hf]
      show (if (l.filter (fun x => decide (x ≠ b))).filter (fun x => decide (x ≠ b)) = []
        then none else some ((l.filter (fun x => decide (x ≠ b))).filter
          (fun x => decide (x ≠ b)))) = some (l.filter (fun x => decide (x ≠ b)))
      rw [filter_idem, if_neg hf]

theorem remFilter_ne_nil [DecidableEq β] (b : β) (x : Option (List β))
    {l : List β} (h : remFilter b x = some l) : l ≠ [] := by
  cases x with
  | none => exact absurd h (by rw [remFilter]; exact fun hc => Option.noConfusion hc)
  | some l0 =>
    rw [remFilter] at h
    by_cases hf : l0.filter (fun x => decide (x ≠ b)) = []
    · rw [if_pos hf] at h
      exact absurd h (fun hc => Option.noConfusion hc)
    · rw [if_neg hf] at h
      rw [← Option.some_inj.mp h]
      exact hf

theorem mem_remFilter [DecidableEq β] {a b : β} (hab : a ≠ b)
    (x : Option (List β)) :
    a ∈ (remFilter b x).getD [] ↔ a ∈ x.getD [] := by
  cases x with
  | none => exact Iff.rfl
  | some l =>
    rw [remFilter]
    by_cases hf : l.filter (fun x => decide (x ≠ b)) = []
    · rw [if_pos hf]
      constructor
      · intro hx
        exact absurd hx (List.not_mem_nil a)
      · intro hx
        have : a ∈ l.filter (fun x => decide (x ≠ b)) :=
          List.mem_filter.mpr ⟨hx, by simp [hab]⟩
        rw [hf] at this
        exact absurd this (List.not_mem_nil a)
    · rw [if_neg hf]
      show a ∈ l.filter (fun x => decide (x ≠ b)) ↔ a ∈ l
      rw [List.mem_filter]
      constructor
      · intro hx
        exact hx.1
      · intro hx
        exact ⟨hx, by simp [hab]⟩

theorem not_mem_remFilter [DecidableEq β] (b : β) (x : Option (List β)) :
    b ∉ (remFilter b x).getD [] := by
  cases x with
  | none => exact List.not_mem_nil b
  | some l =>
    rw [remFilter]
    by_cases hf : l.filter (fun x => decide (x ≠ b)) = []
    · rw [if_pos hf]
      exact List.not_mem_nil b
    · rw [if_neg hf]
      intro hx
      have := (List.mem_filter.mp hx).2
      simp at this

theorem remFilter_eq_none_iff [DecidableEq β] (b : β) (x : Option (List β)) :
    remFilter b x = none ↔ ∀ a ∈ x.getD [], a = b := by
  cases x with
  | none =>
    constructor
    · intro _ a ha
      exact absurd ha (List.not_mem_nil a)
    · intro _
      rfl
  | some l =>
    rw [remFilter]
    by_cases hf : l.filter (fun x => decide (x ≠ b)) = []
    · rw [if_pos hf]
      constructor
      · intro _ a ha
        have := List.filter_eq_nil_iff.mp hf a ha
        simp at this
        exact this
      · intro _
        rfl
    · rw [if_neg hf]
      constructor
      · intro hc
        exact absurd hc (fun hcc => Option.noConfusion hcc)
      · intro hall
        exact absurd (List.filter_eq_nil_iff.mpr (fun a ha => by simp [hall a ha])) hf

theorem removeSegFromDoc_segmentOwners (fp0 : SegmentFingerprint)
    (acc : TranslationCache) (d1 : String) :
    (removeSegFromDoc fp0 acc d1).segmentOwners = acc.segmentOwners := by
  cases hx : mapGet acc.documentSegments d1 with
  | none => simp only [removeSegFromDoc, hx]
  | some set1 =>
    simp only [removeSegFromDoc, hx]
    by_cases hf : set1.filter (fun f => decide (f ≠ fp0)) = []
    · rw [if_pos hf]
    · rw [if_neg hf]

theorem removeSegFromDoc_segmentCache (fp0 : SegmentFingerprint)
    (acc : TranslationCache) (d1 : String) :
    (removeSegFromDoc fp0 acc d1).segmentCache = acc.segmentCache := by
  cases hx : mapGet acc.documentSegments d1 with
  | none => simp only [removeSegFromDoc, hx]
  | some set1 =>
    simp only [removeSegFromDoc, hx]
    by_cases hf : set1.filter (fun f => decide (f ≠ fp0)) = []
    · rw [if_pos hf]
    · rw [if_neg hf]

theorem removeSegFromDoc_nodup (fp0 : SegmentFingerprint) (acc : TranslationCache)
    (d1 : String) (hn : keysNodup acc.documentSegments) :
    keysNodup (removeSegFromDoc fp0 acc d1).documentSegments := by
  cases hx : mapGet acc.documentSegments d1 with
  | none =>
    simp only [removeSegFromDoc, hx]
    exact hn
  | some set1 =>
    simp only [removeSegFromDoc, hx]
    by_cases hf : set1.filter (fun f => decide (f ≠ fp0)) = []
    · rw [if_pos hf]
      exact keysNodup_mapDelete hn d1
    · rw [if_neg hf]
      exact keysNodup_mapSet hn d1 _

theorem removeSegFromDoc_docSegs (fp0 : SegmentFingerprint) (acc : TranslationCache)
    (hn : keysNodup acc.documentSegments) (d1 d : String) :
    mapGet (removeSegFromDoc fp0 acc d1).documentSegments d
      = if d1 = d then remFilter fp0 (mapGet acc.documentSegments d)
        else mapGet acc.documentSegments d := by
  cases hd1 : mapGet acc.documentSegments d1 with
  | none =>
    simp only [removeSegFromDoc, hd1]
    by_cases h : d1 = d
    · subst h
      rw [if_pos rfl, hd1]
      rfl
    · rw [if_neg h]
  | some set1 =>
    simp only [removeSegFromDoc, hd1]
    by_cases hf : set1.filter (fun f => decide (f ≠ fp0)) = []
    · rw [if_pos hf]
      show mapGet (mapDelete acc.documentSegments d1) d = _
      rw [mapGet_mapDelete hn]
      by_cases h : d1 = d
      · subst h
        rw [if_pos rfl, if_pos rfl, hd1]
        show (none : Option (List SegmentFingerprint))
          = if set1.filter (fun f => decide (f ≠ fp0)) = [] then none
            else some (set1.filter (fun f => decide (f ≠ fp0)))
        rw [if_pos hf]
      · rw [if_neg h, if_neg h]
    · rw [if_neg hf]
      show mapGet (mapSet acc.documentSegments d1
        (set1.filter (fun f => decide (f ≠ fp0)))) d = _
      rw [mapGet_mapSet]
      by_cases h : d1 = d
      · subst h
        rw [if_pos rfl, if_pos rfl, hd1]
        show some (set1.filter (fun f => decide (f ≠ fp0)))
          = if set1.filter (fun f => decide (f ≠ fp0)) = [] then none
            else some (set1.filter (fun f => decide (f ≠ fp0)))
        rw [if_neg hf]
      · rw [if_neg h, if_neg h]

theorem foldRemove_segmentOwners (fp0 : SegmentFingerprint) :
    ∀ (owners : List String) (acc : TranslationCache),
    (owners.foldl (removeSegFromDoc fp0) acc).segmentOwners = acc.segmentOwners := by
  intro owners
  induction owners with
  | nil => intro acc; rfl
  | cons d1 rest ih =>
    intro acc
    show (rest.foldl (removeSegFromDoc fp0) (removeSegFromDoc fp0 acc d1)).segmentOwners = _
    rw [ih, removeSegFromDoc_segmentOwners]

theorem foldRemove_segmentCache (fp0 : SegmentFingerprint) :
    ∀ (owners : List String) (acc : TranslationCache),
    (owners.foldl (removeSegFromDoc fp0) acc).segmentCache = acc.segmentCache := by
  intro owners
  induction owners with
  | nil => intro acc; rfl
  | cons d1 rest ih =>
    intro acc
    show (rest.foldl (removeSegFromDoc fp0) (removeSegFromDoc fp0 acc d1)).segmentCache = _
    rw [ih, removeSegFromDoc_segmentCache]

theorem foldRemove_nodup (fp0 : SegmentFingerprint) :
    ∀ (owners : List String) (acc : TranslationCache),
    keysNodup acc.documentSegments →
    keysNodup (owners.foldl (removeSegFromDoc fp0) acc).documentSegments := by
  intro owners
  induction owners with
  | nil => intro acc hn; exact hn
  | cons d1 rest ih =>
    intro acc hn
    exact ih (removeSegFromDoc fp0 acc d1) (removeSegFromDoc_nodup fp0 acc d1 hn)

theorem foldRemove_docSegs (fp0 : SegmentFingerprint) :
    ∀ (owners : List String) (acc : TranslationCache),
    keysNodup acc.documentSegments → ∀ d,
    mapGet (owners.foldl (removeSegFromDoc fp0) acc).documentSegments d
      = if d ∈ owners then remFilter fp0 (mapGet acc.documentSegments d)
        else mapGet acc.documentSegments d := by
  intro owners
  induction owners with
  | nil =>
    intro acc hn d
    rw [if_neg (List.not_mem_nil d)]
    rfl
  | cons d1 rest ih =>
    intro acc hn d
    show mapGet (rest.foldl (removeSegFromDoc fp0)
      (removeSegFromDoc fp0 acc d1)).documentSegments d = _
    rw [ih (removeSegFromDoc fp0 acc d1) (removeSegFromDoc_nodup fp0 acc d1 hn) d,
      removeSegFromDoc_docSegs fp0 acc hn d1 d]
    by_cases h1 : d1 = d
    · subst h1
      rw [if_pos rfl]
      by_cases h2 : d1 ∈ rest
      · rw [if_pos h2, if_pos (List.mem_cons_self d1 rest), remFilter_idem]
      · rw [if_neg h2, if_pos (List.mem_cons_self d1 rest)]
    · rw [if_neg h1]
      by_cases h2 : d ∈ rest
      · rw [if_pos h2, if_pos (List.mem_cons_of_mem d1 h2)]
      · rw [if_neg h2, if_neg (fun hc =>
          (List.mem_cons.mp hc).elim (fun he => h1 he.symm) h2)]

theorem detachDocFromSeg_docSegs (d0 : String) (acc : TranslationCache)
    (fp1 : SegmentFingerprint) :
    (detachDocFromSeg d0 acc fp1).documentSegments = acc.documentSegments := by
  cases hx : mapGet acc.segmentOwners fp1 with
  | none => simp only [detachDocFromSeg, hx]
  | some owners =>
    simp only [detachDocFromSeg, hx]
    by_cases hf : owners.filter (fun d => decide (d ≠ d0)) = []
    · rw [if_pos hf]
    · rw [if_neg hf]

theorem detachDocFromSeg_ownersNodup (d0 : String) (acc : TranslationCache)
    (fp1 : SegmentFingerprint) (hn : keysNodup acc.segmentOwners) :
    keysNodup (detachDocFromSeg d0 acc fp1).segmentOwners := by
  cases hx : mapGet acc.segmentOwners fp1 with
  | none =>
    simp only [detachDocFromSeg, hx]
    exact hn
  | some owners =>
    simp only [detachDocFromSeg, hx]
    by_cases hf : owners.filter (fun d => decide (d ≠ d0)) = []
    · rw [if_pos hf]
      exact keysNodup_mapDelete hn fp1
    · rw [if_neg hf]
      exact keysNodup_mapSet hn fp1 _

theorem detachDocFromSeg_cacheNodup (d0 : String) (acc : TranslationCache)
    (fp1 : SegmentFingerprint) (hn : keysNodup acc.segmentCache) :
    keysNodup (detachDocFromSeg d0 acc fp1).segmentCache := by
  cases hx : mapGet acc.segmentOwners fp1 with
  | none =>
    simp only [detachDocFromSeg, hx]
    exact keysNodup_mapDelete hn fp1
  | some owners =>
    simp only [detachDocFromSeg, hx]
    by_cases hf : owners.filter (fun d => decide (d ≠ d0)) = []
    · rw [if_pos hf]
      exact keysNodup_mapDelete hn fp1
    · rw [if_neg hf]
      exact hn

theorem detachDocFromSeg_owners (d0 : String) (acc : TranslationCache)
    (hn : keysNodup acc.segmentOwners) (fp1 fp : SegmentFingerprint) :
    mapGet (detachDocFromSeg d0 acc fp1).segmentOwners fp
      = if fp1 = fp then remFilter d0 (mapGet acc.segmentOwners fp)
        else mapGet acc.segmentOwners fp := by
  cases hx : mapGet acc.segmentOwners fp1 with
  | none =>
    simp only [detachDocFromSeg, hx]
    by_cases h : fp1 = fp
    · subst h
      rw [if_pos rfl, hx]
      rfl
    · rw [if_neg h]
  | some owners =>
    simp only [detachDocFromSeg, hx]
    by_cases hf : owners.filter (fun d => decide (d ≠ d0)) = []
    · rw [if_pos hf]
      show mapGet (mapDelete acc.segmentOwners fp1) fp = _
      rw [mapGet_mapDelete hn]
      by_cases h : fp1 = fp
      · subst h
        rw [if_pos rfl, if_pos rfl, hx]
        show (none : Option (List String))
          = if owners.filter (fun d => decide (d ≠ d0)) = [] then none
            else some (owners.filter (fun d => decide (d ≠ d0)))
        rw [if_pos hf]
      · rw [if_neg h, if_neg h]
    · rw [if_neg hf]
      show mapGet (mapSet acc.segmentOwners fp1
        (owners.filter (fun d => decide (d ≠ d0)))) fp = _
      rw [mapGet_mapSet]
      by_cases h : fp1 = fp
      · subst h
        rw [if_pos rfl, if_pos rfl, hx]
        show some (owners.filter (fun d => decide (d ≠ d0)))
          = if owners.filter (fun d => decide (d ≠ d0)) = [] then none
            else some (owners.filter (fun d => decide (d ≠ d0)))
        rw [if_neg hf]
      · rw [if_neg h, if_neg h]

theorem detachDocFromSeg_cache (d0 : String) (acc : TranslationCache)
    (hnc : keysNodup acc.segmentCache) (fp1 fp : SegmentFingerprint) :
    mapGet (detachDocFromSeg d0 acc fp1).segmentCache fp
      = if fp1 = fp ∧ remFilter d0 (mapGet acc.segmentOwners fp) = none then none
        else mapGet acc.segmentCache fp := by
  cases hx : mapGet acc.segmentOwners fp1 with
  | none =>
    simp only [detachDocFromSeg, hx]
    show mapGet (mapDelete acc.segmentCache fp1) fp = _
    rw [mapGet_mapDelete hnc]
    by_cases h : fp1 = fp
    · subst h
      rw [if_pos rfl, if_pos ⟨rfl, by rw [hx]; rfl⟩]
    · rw [if_neg h, if_neg (fun hc => h hc.1)]
  | some owners =>
    simp only [detachDocFromSeg, hx]
    by_cases hf : owners.filter (fun d => decide (d ≠ d0)) = []
    · rw [if_pos hf]
      show mapGet (mapDelete acc.segmentCache fp1) fp = _
      rw [mapGet_mapDelete hnc]
      by_cases h : fp1 = fp
      · subst h
        rw [if_pos rfl, if_pos ⟨rfl, by
          rw [hx]
          show (if owners.filter (fun d => decide (d ≠ d0)) = [] then none
            else some (owners.filter (fun d => decide (d ≠ d0)))) = none
          rw [if_pos hf]⟩]
      · rw [if_neg h, if_neg (fun hc => h hc.1)]
    · rw [if_neg hf]
      show mapGet acc.segmentCache fp = _
      by_cases h : fp1 = fp
      · subst h
        rw [if_neg (fun hc => by
          rw [hx] at hc
          have hc2 := hc.2
          rw [show remFilter d0 (some owners)
              = if owners.filter (fun d => decide (d ≠ d0)) = [] then none
                else some (owners.filter (fun d => decide (d ≠ d0))) from rfl,
            if_neg hf] at hc2
          exact Option.noConfusion hc2)]
      · rw [if_neg (fun hc => h hc.1)]

theorem foldDetach_docSegs (d0 : String) :
    ∀ (fps : List SegmentFingerprint) (acc : TranslationCache),
    (fps.foldl (detachDocFromSeg d0) acc).documentSegments = acc.documentSegments := by
  intro fps
  induction fps with
  | nil => intro acc; rfl
  | cons fp1 rest ih =>
    intro acc
    show (rest.foldl (detachDocFromSeg d0) (detachDocFromSeg d0 acc fp1)).documentSegments = _
    rw [ih, detachDocFromSeg_docSegs]

theorem foldDetach_ownersNodup (d0 : String) :
    ∀ (fps : List SegmentFingerprint) (acc : TranslationCache),
    keysNodup acc.segmentOwners →
    keysNodup (fps.foldl (detachDocFromSeg d0) acc).segmentOwners := by
  intro fps
  induction fps with
  | nil => intro acc hn; exact hn
  | cons fp1 rest ih =>
    intro acc hn
    exact ih (detachDocFromSeg d0 acc fp1) (detachDocFromSeg_ownersNodup d0 acc fp1 hn)

theorem foldDetach_cacheNodup (d0 : String) :
    ∀ (fps : List SegmentFingerprint) (acc : TranslationCache),
    keysNodup acc.segmentCache →
    keysNodup (fps.foldl (detachDocFromSeg d0) acc).segmentCache := by
  intro fps
  induction fps with
  | nil => intro acc hn; exact hn
  | cons fp1 rest ih =>
    intro acc hn
    exact ih (detachDocFromSeg d0 acc fp1) (detachDocFromSeg_cacheNodup d0 acc fp1 hn)

theorem foldDetach_owners (d0 : String) :
    ∀ (fps : List SegmentFingerprint) (acc : TranslationCache),
    keysNodup acc.segmentOwners → ∀ fp,
    mapGet (fps.foldl (detachDocFromSeg d0) acc).segmentOwners fp
      = if fp ∈ fps then remFilter d0 (mapGet acc.segmentOwners fp)
        else mapGet acc.segmentOwners fp := by
  intro fps
  induction fps with
  | nil =>
    intro acc hn fp
    rw [if_neg (List.not_mem_nil fp)]
    rfl
  | cons fp1 rest ih =>
    intro acc hn fp
    show mapGet (rest.foldl (detachDocFromSeg d0)
      (detachDocFromSeg d0 acc fp1)).segmentOwners fp = _
    rw [ih (detachDocFromSeg d0 acc fp1) (detachDocFromSeg_ownersNodup d0 acc fp1 hn) fp,
      detachDocFromSeg_owners d0 acc hn fp1 fp]
    by_cases h1 : fp1 = fp
    · subst h1
      rw [if_pos rfl]
      by_cases h2 : fp1 ∈ rest
      · rw [if_pos h2, if_pos (List.mem_cons_self fp1 rest), remFilter_idem]
      · rw [if_neg h2, if_pos (List.mem_cons_self fp1 rest)]
    · rw [if_neg h1]
      by_cases h2 : fp ∈ rest
      · rw [if_pos h2, if_pos (List.mem_cons_of_mem fp1 h2)]
      · rw [if_neg h2, if_neg (fun hc =>
          (List.mem_cons.mp hc).elim (fun he => h1 he.symm) h2)]

theorem foldDetach_cache (d0 : String) :
    ∀ (fps : List SegmentFingerprint) (acc : TranslationCache),
    keysNodup acc.segmentOwners → keysNodup acc.segmentCache → ∀ fp,
    mapGet (fps.foldl (detachDocFromSeg d0) acc).segmentCache fp
      = if fp ∈ fps ∧ remFilter d0 (mapGet acc.segmentOwners fp) = none then none
        else mapGet acc.segmentCache fp := by
  intro fps
  induction fps with
  | nil =>
    intro acc hno hnc fp
    rw [if_neg (fun hc => List.not_mem_nil fp hc.1)]
    rfl
  | cons fp1 rest ih =>
    intro acc hno hnc fp
    show mapGet (rest.foldl (detachDocFromSeg d0)
      (detachDocFromSeg d0 acc fp1)).segmentCache fp = _
    rw [ih (detachDocFromSeg d0 acc fp1) (detachDocFromSeg_ownersNodup d0 acc fp1 hno)
        (detachDocFromSeg_cacheNodup d0 acc fp1 hnc) fp,
      detachDocFromSeg_owners d0 acc hno fp1 fp,
      detachDocFromSeg_cache d0 acc hnc fp1 fp]
    by_cases h1 : fp1 = fp
    · subst h1
      rw [if_pos rfl, remFilter_idem]
      by_cases hrf : remFilter d0 (mapGet acc.segmentOwners fp1) = none
      · by_cases h2 : fp1 ∈ rest
        · rw [if_pos ⟨h2, hrf⟩, if_pos ⟨List.mem_cons_self fp1 rest, hrf⟩]
        · rw [if_neg (fun hc => h2 hc.1), if_pos ⟨rfl, hrf⟩,
            if_pos ⟨List.mem_cons_self fp1 rest, hrf⟩]
      · rw [if_neg (fun hc => hrf hc.2), if_neg (fun hc => hrf hc.2),
          if_neg (fun hc => hrf hc.2)]
    · rw [if_neg h1,
        if_neg (show ¬(fp1 = fp ∧ remFilter d0 (mapGet acc.segmentOwners fp) = none)
          from fun hc => h1 hc.1)]
      by_cases h2 : fp ∈ rest ∧ remFilter d0 (mapGet acc.segmentOwners fp) = none
      · rw [if_pos h2, if_pos ⟨List.mem_cons_of_mem fp1 h2.1, h2.2⟩]
      · rw [if_neg h2, if_neg (fun hc => h2
          ⟨(List.mem_cons.mp hc.1).elim (fun he => absurd he.symm h1) id, hc.2⟩)]

theorem cacheWF_associate (s : TranslationCache) (fp0 : SegmentFingerprint)
    (d0 : String) (h : CacheWF s) :
    CacheWF (s.associateSegmentWithDocument fp0 d0) := by
  simp only [TranslationCache.associateSegmentWithDocument]
  by_cases hmem : d0 ∈ (mapGet s.segmentOwners fp0).getD []
  · rw [if_pos hmem]
    exact h
  · rw [if_neg hmem]
    refine ⟨keysNodup_mapSet h.ownersNodup fp0 _, keysNodup_mapSet h.segsNodup d0 _,
      h.cacheNodup, ?_, ?_, ?_⟩
    · intro fp os hos
      have hos2 : mapGet (mapSet s.segmentOwners fp0
          ((mapGet s.segmentOwners fp0).getD [] ++ [d0])) fp = some os := hos
      rw [mapGet_mapSet] at hos2
      by_cases hfp : fp0 = fp
      · rw [if_pos hfp] at hos2
        rw [← Option.some_inj.mp hos2]
        simp
      · rw [if_neg hfp] at hos2
        exact h.ownersNE fp os hos2
    · intro d fps hd
      have hd2 : mapGet (mapSet s.documentSegments d0
          (if fp0 ∈ (mapGet s.documentSegments d0).getD []
            then (mapGet s.documentSegments d0).getD []
            else (mapGet s.documentSegments d0).getD [] ++ [fp0])) d = some fps := hd
      rw [mapGet_mapSet] at hd2
      by_cases hdd : d0 = d
      · rw [if_pos hdd] at hd2
        rw [← Option.some_inj.mp hd2]
        by_cases hin : fp0 ∈ (mapGet s.documentSegments d0).getD []
        · rw [if_pos hin]
          exact List.ne_nil_of_mem hin
        · rw [if_neg hin]
          simp
      · rw [if_neg hdd] at hd2
        exact h.segsNE d fps hd2
    · intro fp d
      have hl := h.link fp d
      rw [ownersOf, segsOf] at hl
      show d ∈ (mapGet (mapSet s.segmentOwners fp0
          ((mapGet s.segmentOwners fp0).getD [] ++ [d0])) fp).getD []
        ↔ fp ∈ (mapGet (mapSet s.documentSegments d0
          (if fp0 ∈ (mapGet s.documentSegments d0).getD []
            then (mapGet s.documentSegments d0).getD []
            else (mapGet s.documentSegments d0).getD [] ++ [fp0])) d).getD []
      rw [mapGet_mapSet, mapGet_mapSet]
      by_cases hfp : fp0 = fp
      · rw [if_pos hfp]
        subst hfp
        by_cases hdd : d0 = d
        · rw [if_pos hdd]
          subst hdd
          constructor
          · intro _
            by_cases hin : fp0 ∈ (mapGet s.documentSegments d0).getD []
            · rw [if_pos hin]
              exact hin
            · rw [if_neg hin]
              simp
          · intro _
            simp
        · rw [if_neg hdd]
          constructor
          · intro hx
            have hx2 : d ∈ (mapGet s.segmentOwners fp0).getD [] ++ [d0] := hx
            rcases List.mem_append.mp hx2 with hx3 | hx3
            · exact hl.mp hx3
            · exact absurd (List.mem_singleton.mp hx3) (fun he => hdd he.symm)
          · intro hx
            show d ∈ (mapGet s.segmentOwners fp0).getD [] ++ [d0]
            exact List.mem_append.mpr (Or.inl (hl.mpr hx))
      · rw [if_neg hfp]
        by_cases hdd : d0 = d
        · rw [if_pos hdd]
          subst hdd
          by_cases hin : fp0 ∈ (mapGet s.documentSegments d0).getD []
          · rw [if_pos hin]
            exact hl
          · rw [if_neg hin]
            constructor
            · intro hx
              show fp ∈ (mapGet s.documentSegments d0).getD [] ++ [fp0]
              exact List.mem_append.mpr (Or.inl (hl.mp hx))
            · intro hx
              have hx2 : fp ∈ (mapGet s.documentSegments d0).getD [] ++ [fp0] := hx
              rcases List.mem_append.mp hx2 with hx3 | hx3
              · exact hl.mpr hx3
              · exact absurd (List.mem_singleton.mp hx3).symm hfp
        · rw [if_neg hdd]
          exact hl

theorem cacheWF_delete_aux (s : TranslationCache) (fp0 : SegmentFingerprint)
    (owners : List String) (h : CacheWF s)
    (ho : mapGet s.segmentOwners fp0 = some owners) :
    CacheWF { owners.foldl (removeSegFromDoc fp0)
        { s with segmentCache := mapDelete s.segmentCache fp0 } with
      segmentOwners := mapDelete (owners.foldl (removeSegFromDoc fp0)
        { s with segmentCache := mapDelete s.segmentCache fp0 }).segmentOwners fp0 } := by
  have hOwn : (owners.foldl (removeSegFromDoc fp0)
      ({ s with segmentCache := mapDelete s.segmentCache fp0 }
        : TranslationCache)).segmentOwners = s.segmentOwners :=
    foldRemove_segmentOwners fp0 owners _
  have hCache : (owners.foldl (removeSegFromDoc fp0)
      ({ s with segmentCache := mapDelete s.segmentCache fp0 }
        : TranslationCache)).segmentCache = mapDelete s.segmentCache fp0 :=
    foldRemove_segmentCache fp0 owners _
  have hSegs : ∀ d, mapGet (owners.foldl (removeSegFromDoc fp0)
      ({ s with segmentCache := mapDelete s.segmentCache fp0 }
        : TranslationCache)).documentSegments d
      = if d ∈ owners then remFilter fp0 (mapGet s.documentSegments d)
        else mapGet s.documentSegments d :=
    fun d => foldRemove_docSegs fp0 owners
      { s with segmentCache := mapDelete s.segmentCache fp0 } h.segsNodup d
  refine ⟨?_, ?_, ?_, ?_, ?_, ?_⟩
  · show keysNodup (mapDelete (owners.foldl (removeSegFromDoc fp0)
      ({ s with segmentCache := mapDelete s.segmentCache fp0 }
        : TranslationCache)).segmentOwners fp0)
    rw [hOwn]
    exact keysNodup_mapDelete h.ownersNodup fp0
  · show keysNodup (owners.foldl (removeSegFromDoc fp0)
      ({ s with segmentCache := mapDelete s.segmentCache fp0 }
        : TranslationCache)).documentSegments
    exact foldRemove_nodup fp0 owners _ h.segsNodup
  · show keysNodup (owners.foldl (removeSegFromDoc fp0)
      ({ s with segmentCache := mapDelete s.segmentCache fp0 }
        : TranslationCache)).segmentCache
    rw [hCache]
    exact keysNodup_mapDelete h.cacheNodup fp0
  · intro fp os hos
    have hos2 : mapGet (mapDelete (owners.foldl (removeSegFromDoc fp0)
        ({ s with segmentCache := mapDelete s.segmentCache fp0 }
          : TranslationCache)).segmentOwners fp0) fp = some os := hos
    rw [hOwn, mapGet_mapDelete h.ownersNodup] at hos2
    by_cases hfp : fp0 = fp
    · rw [if_pos hfp] at hos2
      exact absurd hos2 (fun hcc => Option.noConfusion hcc)
    · rw [if_neg hfp] at hos2
      exact h.ownersNE fp os hos2
  · intro d fps hd
    have hd2 : mapGet (owners.foldl (removeSegFromDoc fp0)
        ({ s with segmentCache := mapDelete s.segmentCache fp0 }
          : TranslationCache)).documentSegments d = some fps := hd
    rw [hSegs d] at hd2
    by_cases hmem : d ∈ owners
    · rw [if_pos hmem] at hd2
      exact remFilter_ne_nil fp0 _ hd2
    · rw [if_neg hmem] at hd2
      exact h.segsNE d fps hd2
  · intro fp d
    have hl := h.link fp d
    rw [ownersOf, segsOf] at hl
    show d ∈ (mapGet (mapDelete (owners.foldl (removeSegFromDoc fp0)
        ({ s with segmentCache := mapDelete s.segmentCache fp0 }
          : TranslationCache)).segmentOwners fp0) fp).getD []
      ↔ fp ∈ (mapGet (owners.foldl (removeSegFromDoc fp0)
        ({ s with segmentCache := mapDelete s.segmentCache fp0 }
          : TranslationCache)).documentSegments d).getD []
    rw [hOwn, mapGet_mapDelete h.ownersNodup, hSegs d]
    by_cases hfp : fp0 = fp
    · rw [if_pos hfp]
      subst hfp
      by_cases hmem : d ∈ owners
      · rw [if_pos hmem]
        constructor
        · intro hx
          exact absurd hx (List.not_mem_nil d)
        · intro hx
          exact absurd hx (not_mem_remFilter fp0 _)
      · rw [if_neg hmem]
        constructor
        · intro hx
          exact absurd hx (List.not_mem_nil d)
        · intro hx
          have hx2 := hl.mpr hx
          rw [ho] at hx2
          exact absurd hx2 hmem
    · rw [if_neg hfp]
      by_cases hmem : d ∈ owners
      · rw [if_pos hmem, mem_remFilter (fun he => hfp he.symm)]
        exact hl
      · rw [if_neg hmem]
        exact hl

theorem cacheWF_deleteSegmentEntry (s : TranslationCache) (fp0 : SegmentFingerprint)
    (h : CacheWF s) : CacheWF (s.deleteSegmentEntry fp0) := by
  cases hc : mapGet s.segmentCache fp0 with
  | none =>
    simp only [TranslationCache.deleteSegmentEntry, hc]
    exact h
  | some e =>
    cases ho : mapGet s.segmentOwners fp0 with
    | none =>
      simp only [TranslationCache.deleteSegmentEntry, hc, ho]
      exact ⟨h.ownersNodup, h.segsNodup, keysNodup_mapDelete h.cacheNodup fp0,
        h.ownersNE, h.segsNE, h.link⟩
    | some owners =>
      simp only [TranslationCache.deleteSegmentEntry, hc, ho]
      exact cacheWF_delete_aux s fp0 owners h ho

theorem cacheWF_clear_aux (s : TranslationCache) (d0 : String)
    (fps : List SegmentFingerprint) (h : CacheWF s)
    (hd : mapGet s.documentSegments d0 = some fps) :
    CacheWF { fps.foldl (detachDocFromSeg d0)
        { s with cache := s.cache.filter (fun p => decide (p.1.uri ≠ d0)) } with
      documentSegments := mapDelete (fps.foldl (detachDocFromSeg d0)
        { s with cache := s.cache.filter (fun p => decide (p.1.uri ≠ d0)) }).documentSegments d0 } := by
  have hDocs : (fps.foldl (detachDocFromSeg d0)
      ({ s with cache := s.cache.filter (fun p => decide (p.1.uri ≠ d0)) }
        : TranslationCache)).documentSegments = s.documentSegments :=
    foldDetach_docSegs d0 fps _
  have hOwn : ∀ fp, mapGet (fps.foldl (detachDocFromSeg d0)
      ({ s with cache := s.cache.filter (fun p => decide (p.1.uri ≠ d0)) }
        : TranslationCache)).segmentOwners fp
      = if fp ∈ fps then remFilter d0 (mapGet s.segmentOwners fp)
        else mapGet s.segmentOwners fp :=
    fun fp => foldDetach_owners d0 fps
      { s with cache := s.cache.filter (fun p => decide (p.1.uri ≠ d0)) }
      h.ownersNodup fp
  refine ⟨?_, ?_, ?_, ?_, ?_, ?_⟩
  · show keysNodup (fps.foldl (detachDocFromSeg d0)
      ({ s with cache := s.cache.filter (fun p => decide (p.1.uri ≠ d0)) }
        : TranslationCache)).segmentOwners
    exact foldDetach_ownersNodup d0 fps _ h.ownersNodup
  · show keysNodup (mapDelete (fps.foldl (detachDocFromSeg d0)
      ({ s with cache := s.cache.filter (fun p => decide (p.1.uri ≠ d0)) }
        : TranslationCache)).documentSegments d0)
    rw [hDocs]
    exact keysNodup_mapDelete h.segsNodup d0
  · show keysNodup (fps.foldl (detachDocFromSeg d0)
      ({ s with cache := s.cache.filter (fun p => decide (p.1.uri ≠ d0)) }
        : TranslationCache)).segmentCache
    exact foldDetach_cacheNodup d0 fps _ h.cacheNodup
  · intro fp os hos
    have hos2 : mapGet (fps.foldl (detachDocFromSeg d0)
        ({ s with cache := s.cache.filter (fun p => decide (p.1.uri ≠ d0)) }
          : TranslationCache)).segmentOwners fp = some os := hos
    rw [hOwn fp] at hos2
    by_cases hmem : fp ∈ fps
    · rw [if_pos hmem] at hos2
      exact remFilter_ne_nil d0 _ hos2
    · rw [if_neg hmem] at hos2
      exact h.ownersNE fp os hos2
  · intro d fps2 hd2
    have hd3 : mapGet (mapDelete (fps.foldl (detachDocFromSeg d0)
        ({ s with cache := s.cache.filter (fun p => decide (p.1.uri ≠ d0)) }
          : TranslationCache)).documentSegments d0) d = some fps2 := hd2
    rw [hDocs, mapGet_mapDelete h.segsNodup] at hd3
    by_cases hdd : d0 = d
    · rw [if_pos hdd] at hd3
      exact absurd hd3 (fun hcc => Option.noConfusion hcc)
    · rw [if_neg hdd] at hd3
      exact h.segsNE d fps2 hd3
  · intro fp d
    have hl := h.link fp d
    rw [ownersOf, segsOf] at hl
    show d ∈ (mapGet (fps.foldl (detachDocFromSeg d0)
        ({ s with cache := s.cache.filter (fun p => decide (p.1.uri ≠ d0)) }
          : TranslationCache)).segmentOwners fp).getD []
      ↔ fp ∈ (mapGet (mapDelete (fps.foldl (detachDocFromSeg d0)
        ({ s with cache := s.cache.filter (fun p => decide (p.1.uri ≠ d0)) }
          : TranslationCache)).documentSegments d0) d).getD []
    rw [hOwn fp, hDocs, mapGet_mapDelete h.segsNodup]
    by_cases hdd : d0 = d
    · rw [if_pos hdd]
      subst hdd
      by_cases hmem : fp ∈ fps
      · rw [if_pos hmem]
        constructor
        · intro hx
          exact absurd hx (not_mem_remFilter d0 _)
        · intro hx
          exact absurd hx (List.not_mem_nil fp)
      · rw [if_neg hmem]
        constructor
        · intro hx
          have hx2 := hl.mp hx
          rw [hd] at hx2
          exact absurd hx2 hmem
        · intro hx
          exact absurd hx (List.not_mem_nil fp)
    · rw [if_neg hdd]
      by_cases hmem : fp ∈ fps
      · rw [if_pos hmem, mem_remFilter (fun he => hdd he.symm)]
        exact hl
      · rw [if_neg hmem]
        exact hl

theorem cacheWF_clearForDocument (s : TranslationCache) (d0 : String)
    (h : CacheWF s) : CacheWF (s.clearForDocument d0) := by
  cases hd : mapGet s.documentSegments d0 with
  | none =>
    simp only [TranslationCache.clearForDocument, hd]
    exact ⟨h.ownersNodup, h.segsNodup, h.cacheNodup, h.ownersNE, h.segsNE, h.link⟩
  | some fps =>
    simp only [TranslationCache.clearForDocument, hd]
    exact cacheWF_clear_aux s d0 fps h hd

theorem clearForDocument_segCache (s : TranslationCache) (d0 : String)
    (h : CacheWF s) (fp : SegmentFingerprint) :
    mapGet (s.clearForDocument d0).segmentCache fp
      = if fp ∈ segsOf s d0 ∧ (∀ x ∈ ownersOf s fp, x = d0) then none
        else mapGet s.segmentCache fp := by
  cases hd : mapGet s.documentSegments d0 with
  | none =>
    simp only [TranslationCache.clearForDocument, hd]
    rw [if_neg (fun hc => absurd hc.1
      (by rw [segsOf, hd]; exact List.not_mem_nil fp))]
  | some fps =>
    simp only [TranslationCache.clearForDocument, hd]
    have hchar : mapGet (fps.foldl (detachDocFromSeg d0)
        ({ s with cache := s.cache.filter (fun p => decide (p.1.uri ≠ d0)) }
          : TranslationCache)).segmentCache fp
        = if fp ∈ fps ∧ remFilter d0 (mapGet s.segmentOwners fp) = none then none
          else mapGet s.segmentCache fp :=
      foldDetach_cache d0 fps
        { s with cache := s.cache.filter (fun p => decide (p.1.uri ≠ d0)) }
        h.ownersNodup h.cacheNodup fp
    show mapGet (fps.foldl (detachDocFromSeg d0)
        ({ s with cache := s.cache.filter (fun p => decide (p.1.uri ≠ d0)) }
          : TranslationCache)).segmentCache fp = _
    rw [hchar]
    have hfps : segsOf s d0 = fps := by rw [segsOf, hd]; rfl
    by_cases hcond : fp ∈ fps ∧ remFilter d0 (mapGet s.segmentOwners fp) = none
    · rw [if_pos hcond, if_pos ⟨(by rw [hfps]; exact hcond.1 : fp ∈ segsOf s d0),
        (remFilter_eq_none_iff d0 _).mp hcond.2⟩]
    · rw [if_neg hcond, if_neg (fun hcc => hcond
        ⟨hfps ▸ hcc.1, (remFilter_eq_none_iff d0 _).mpr hcc.2⟩)]

theorem cacheWF_segCacheSet (s : TranslationCache) (fp : SegmentFingerprint)
    (e : SegmentCacheEntry) (h : CacheWF s) :
    CacheWF { s with segmentCache := mapSet s.segmentCache fp e } :=
  ⟨h.ownersNodup, h.segsNodup, keysNodup_mapSet h.cacheNodup fp e,
    h.ownersNE, h.segsNE, h.link⟩

theorem cacheWF_enforce (s : TranslationCache) (h : CacheWF s) :
    CacheWF s.enforceSegmentCapacity := by
  unfold TranslationCache.enforceSegmentCapacity
  by_cases hlen : s.segmentCache.length ≤ s.maxSegmentEntries
  · rw [if_pos hlen]
    exact h
  · rw [if_neg hlen]
    cases ho : oldestKeyOf (s.segmentCache.map (fun p => (p.1, p.2.timestamp))) with
    | none => exact h
    | some fp => exact cacheWF_deleteSegmentEntry s fp h

theorem cacheWF_get (s : TranslationCache) (uri : String) (version : Nat)
    (cfg : ResolvedTranslationConfiguration) (now : Nat) (h : CacheWF s) :
    CacheWF (s.get uri version cfg now).2 := by
  cases hc : mapGet s.cache (buildKey uri version cfg) with
  | none =>
    rw [get_eq_of_miss s uri version cfg now hc]
    exact h
  | some e =>
    rw [get_eq_of_hit s uri version cfg now e hc]
    by_cases hexp : s.ttlMs < now - e.timestamp
    · rw [if_pos hexp]
      exact ⟨h.ownersNodup, h.segsNodup, h.cacheNodup, h.ownersNE, h.segsNE, h.link⟩
    · rw [if_neg hexp]
      exact h

theorem cacheWF_getSegment (s : TranslationCache) (uri : String)
    (cfg : ResolvedTranslationConfiguration) (md : Str) (now : Nat)
    (h : CacheWF s) : CacheWF (s.getSegment uri cfg md now).2 := by
  cases hc : mapGet s.segmentCache (buildSegmentFingerprint cfg md) with
  | none =>
    simp only [TranslationCache.getSegment, hc]
    exact h
  | some entry =>
    simp only [TranslationCache.getSegment, hc]
    by_cases hexp : s.ttlMs < now - entry.timestamp
    · rw [if_pos hexp]
      exact cacheWF_deleteSegmentEntry s _ h
    · rw [if_neg hexp]
      exact cacheWF_associate _ _ _ (cacheWF_segCacheSet s _ _ h)

theorem cacheWF_setSegment (s : TranslationCache) (uri : String)
    (cfg : ResolvedTranslationConfiguration) (md : Str)
    (res : RawTranslationResult) (now : Nat) (h : CacheWF s) :
    CacheWF (s.setSegment uri cfg md res now) :=
  cacheWF_enforce _ (cacheWF_associate _ _ _ (cacheWF_segCacheSet s _ _ h))

theorem cacheWF_empty : CacheWF TranslationCache.empty :=
  ⟨List.Pairwise.nil, List.Pairwise.nil, List.Pairwise.nil,
    fun _ _ hx => Option.noConfusion hx,
    fun _ _ hx => Option.noConfusion hx,
    fun fp d => Iff.intro (fun hx => absurd hx (List.not_mem_nil d))
      (fun hx => absurd hx (List.not_mem_nil fp))⟩

/-- C9: every cache operation — segment read (including TTL expiry),
segment write, clearing a document, document-tier read (including TTL
expiry) and capacity eviction — preserves well-formedness of the segment
bookkeeping, in particular the bidirectional consistency `d` owns `fp` iff
`fp` is registered under `d`; and `clearForDocument` deletes a segment cache
entry exactly when the cleared document was the entry's last owning
document. -/

theorem C9_bidirectional_ownership (s : TranslationCache) (h : CacheWF s)
    (uri docUri : String) (cfg : ResolvedTranslationConfiguration) (md : Str)
    (res : RawTranslationResult) (now : Nat) (uri2 : String) (version : Nat)
    (cfg2 : ResolvedTranslationConfiguration) (now2 : Nat) :
    CacheWF (s.getSegment uri cfg md now).2 ∧
    CacheWF (s.setSegment uri cfg md res now) ∧
    CacheWF (s.clearForDocument docUri) ∧
    CacheWF (s.get uri2 version cfg2 now2).2 ∧
    CacheWF s.enforceSegmentCapacity ∧
    (∀ fp, mapGet (s.clearForDocument docUri).segmentCache fp
      = if fp ∈ segsOf s docUri ∧ (∀ x ∈ ownersOf s fp, x = docUri) then none
        else mapGet s.segmentCache fp) :=
  ⟨cacheWF_getSegment s uri cfg md now h,
    cacheWF_setSegment s uri cfg md res now h,
    cacheWF_clearForDocument s docUri h,
    cacheWF_get s uri2 version cfg2 now2 h,
    cacheWF_enforce s h,
    fun fp => clearForDocument_segCache s docUri h fp⟩

/-- C9 instantiated at the empty cache. -/

theorem C9_bidirectional_ownership_witness :
    CacheWF TranslationCache.empty ∧
    (CacheWF (TranslationCache.empty.getSegment "d" ⟨"b", "k", "m", "L", 1⟩
        (strLit "hi") 0).2 ∧
      CacheWF (TranslationCache.empty.setSegment "d" ⟨"b", "k", "m", "L", 1⟩
        (strLit "hi") ⟨strLit "T", "p", 1⟩ 0) ∧
      CacheWF (TranslationCache.empty.clearForDocument "d") ∧
      CacheWF (TranslationCache.empty.get "d" 1 ⟨"b", "k", "m", "L", 1⟩ 0).2 ∧
      CacheWF TranslationCache.empty.enforceSegmentCapacity ∧
      (∀ fp, mapGet (TranslationCache.empty.clearForDocument "d").segmentCache fp
        = if fp ∈ segsOf TranslationCache.empty "d"
              ∧ (∀ x ∈ ownersOf TranslationCache.empty fp, x = "d") then none
          else mapGet TranslationCache.empty.segmentCache fp)) :=
  ⟨cacheWF_empty,
    C9_bidirectional_ownership TranslationCache.empty cacheWF_empty
      "d" "d" ⟨"b", "k", "m", "L", 1⟩ (strLit "hi") ⟨strLit "T", "p", 1⟩ 0
      "d" 1 ⟨"b", "k", "m", "L", 1⟩ 0⟩

end BabelMD

